import Mathlib

/-!
# Verification of the wildcard-matcher core

Shallow embedding of the wildcard-matcher repository (pattern compiler,
diagnostics mapper, and the matching strategies) together with proofs of
the specification claims.

Strings are modelled as `List Char` (the C++ code operates on
`std::string_view` byte strings); raw-byte validation is modelled over
`List Nat` byte values.  Machine indices (`size_t`) are modelled as `Nat`;
all index arithmetic in the sources stays far from overflow, and the
sources guard every subtraction, so `Nat` arithmetic is exact here.
-/

set_option maxHeartbeats 1000000

namespace Wildcard

/-! ## Data model (include/utils/token.hpp, issues.hpp, parser.hpp) -/

/-- The `Token` variant from `include/utils/token.hpp`.
`LiteralSequence` carries the literal characters; `CharacterSet` carries a
256-entry bitset (modelled as a list of booleans).  The parser never
produces `CharacterSet`, but the variant alternative exists. -/
inductive Token where
  | AnySequence : Token
  | LiteralSequence : List Char → Token
  | AnyChar : Token
  | CharacterSet : List Bool → Token
  deriving DecidableEq, Repr

/-- `IssueType` from `include/utils/issues.hpp`. -/
inductive IssueType where
  | Warning : IssueType
  | Error : IssueType
  deriving DecidableEq, Repr

/-- `IssueCode` from `include/utils/issues.hpp`. -/
inductive IssueCode where
  | MultibyteCharacterNotAllowed : IssueCode
  | UndefinedEscapeSequence : IssueCode
  | TrailingBackslash : IssueCode
  | ConsecutiveAsterisksMerged : IssueCode
  deriving DecidableEq, Repr

/-- `ParseEvent` from `include/utils/parser.hpp`: code, 1-based position in
the raw pattern, and an optional detail string. -/
structure ParseEvent where
  code : IssueCode
  position : Nat
  detail : Option String := none
  deriving DecidableEq, Repr

/-- `ParseResult` from `include/utils/parser.hpp`. -/
structure ParseResult where
  tokens : List Token
  events : List ParseEvent
  deriving DecidableEq, Repr

/-- `Issue` from `include/utils/issues.hpp`. -/
structure Issue where
  type : IssueType
  code : IssueCode
  message : String
  deriving DecidableEq, Repr

/-! ## The parser (include/utils/parser.hpp, `Parser::parse`)

The C++ loop carries a pending `literal_builder`, the token list and the
event list; we thread that state explicitly. -/

/-- The mutable state of the `Parser::parse` loop. -/
structure PState where
  literalBuilder : List Char
  tokens : List Token
  events : List ParseEvent
  deriving DecidableEq, Repr

/-- `flush_literal_builder` from `Parser::parse`: a non-empty pending run
becomes a `LiteralSequence` token. -/
def flushTokens (builder : List Char) (tokens : List Token) : List Token :=
  if builder = [] then tokens else tokens ++ [Token.LiteralSequence builder]

/-- The `'*'` case of `Parser::parse`: flush the pending run, then either
merge into a preceding `AnySequence` (emitting a `ConsecutiveAsterisksMerged`
event at the current 1-based position) or append a fresh `AnySequence`. -/
def starStep (st : PState) (pos : Nat) : PState :=
  let ts := flushTokens st.literalBuilder st.tokens
  if ts.getLast? = some Token.AnySequence then
    { literalBuilder := [], tokens := ts,
      events := st.events ++ [⟨IssueCode.ConsecutiveAsterisksMerged, pos, none⟩] }
  else
    { literalBuilder := [], tokens := ts ++ [Token.AnySequence], events := st.events }

/-- The `'?'` case of `Parser::parse`. -/
def anyCharStep (st : PState) : PState :=
  { literalBuilder := [],
    tokens := flushTokens st.literalBuilder st.tokens ++ [Token.AnyChar],
    events := st.events }

/-- Is the escaped character one with special meaning (`'*'`, `'?'`, `'\'`)? -/
def isDefinedEscape (c : Char) : Bool :=
  c = '*' || c = '?' || c = '\\'

/-- The two-character escape case of `Parser::parse`: the escaped character
joins the pending run; a malformed escape additionally emits an
`UndefinedEscapeSequence` event (detail: the offending character) at the
backslash's 1-based position. -/
def escapeStep (st : PState) (pos : Nat) (c : Char) : PState :=
  { literalBuilder := st.literalBuilder ++ [c],
    tokens := st.tokens,
    events := if isDefinedEscape c then st.events
      else st.events ++ [⟨IssueCode.UndefinedEscapeSequence, pos, some (String.mk [c])⟩] }

/-- The main loop of `Parser::parse`; `pos` is the 1-based position of the
next character to process.  A trailing backslash emits a `TrailingBackslash`
event and ends the loop. -/
def parseChars : List Char → Nat → PState → PState
  | [], _, st => st
  | c :: rest, pos, st =>
    if c = '?' then parseChars rest (pos + 1) (anyCharStep st)
    else if c = '*' then parseChars rest (pos + 1) (starStep st pos)
    else if c = '\\' then
      match rest with
      | [] => { st with events := st.events ++ [⟨IssueCode.TrailingBackslash, pos, none⟩] }
      | c2 :: rest2 => parseChars rest2 (pos + 2) (escapeStep st pos c2)
    else parseChars rest (pos + 1) { st with literalBuilder := st.literalBuilder ++ [c] }

/-- `Parser::parse`: run the loop from the initial state and flush the
pending literal run at end of input. -/
def Parser.parse (p : List Char) : ParseResult :=
  let st := parseChars p 1 ⟨[], [], []⟩
  ⟨flushTokens st.literalBuilder st.tokens, st.events⟩

/-! ## Diagnostics mapper (include/utils/validator.hpp, issues.hpp) -/

/-- The `IssueType` to string mapping: the `std::formatter<IssueType>`
specialisation in `include/utils/issues.hpp` prints `Error` / `Warning`. -/
def issueTypeToString : IssueType → String
  | IssueType.Error => "Error"
  | IssueType.Warning => "Warning"

/-- `Validator::createIssue`: the fixed type/message table, then the
centralized `"<Type> at position <n>: <text>"` formatting. -/
def Validator.createIssue (code : IssueCode) (position : Nat)
    (detail : Option String := none) : Issue :=
  let info : IssueType × String :=
    match code with
    | IssueCode.MultibyteCharacterNotAllowed =>
      (IssueType.Error,
        "Input must contain only single-byte ASCII characters; a multi-byte character was found.")
    | IssueCode.UndefinedEscapeSequence =>
      (IssueType.Error,
        "Undefined escape sequence '\\" ++ detail.getD "" ++ "'. This is a fatal error.")
    | IssueCode.TrailingBackslash =>
      (IssueType.Error, "Pattern cannot end with a trailing backslash. This is a fatal error.")
    | IssueCode.ConsecutiveAsterisksMerged =>
      (IssueType.Warning,
        "Consecutive '*' characters were found and automatically merged into a single '*'.")
  ⟨info.1, code,
    issueTypeToString info.1 ++ " at position " ++ toString position ++ ": " ++ info.2⟩

/-- `Validator::validateParseResult`: one Issue per parse event, in order. -/
def Validator.validateParseResult (pr : ParseResult) : List Issue :=
  pr.events.map fun e => Validator.createIssue e.code e.position e.detail

/-- `Validator::validateRawString`: scan the bytes (values of the
`unsigned char` casts) and report the first byte greater than 127, then
stop.  The input is the byte string. -/
def Validator.validateRawString : List Nat → Nat → List Issue
  | [], _ => []
  | b :: rest, i =>
    if 127 < b then [Validator.createIssue IssueCode.MultibyteCharacterNotAllowed (i + 1)]
    else Validator.validateRawString rest (i + 1)

/-! ## Recursive backtracking (include/solvers/recursive.hpp)

`RecursiveSolver::isMatch(i, j, depth)` recurses on the text index `i` and
token index `j` over fixed `s`, `p_tokens`.  We embed it on the
corresponding suffixes `s.drop i`, `p_tokens.drop j`; the base case
`j == n → i == m` becomes "token suffix empty → text suffix empty". -/

/-- The literal check of the solvers:
`i + literal_len <= m && s.compare(i, literal_len, literal) == 0`,
on the text suffix starting at `i`. -/
def litHere (s : List Char) (v : List Char) : Bool :=
  v.length ≤ s.length && s.take v.length = v

/-- `RecursiveSolver::isMatch`, boolean result.  The switch in the source
covers `ANY_SEQUENCE`, `ANY_CHAR`, `LITERAL_SEQUENCE` and falls through to
`return false` otherwise. -/
def recMatch : List Char → List Token → Bool
  | s, [] => s.isEmpty
  | s, Token.AnySequence :: ts =>
    recMatch s ts ||
      (match s with
       | [] => false
       | _ :: s' => recMatch s' (Token.AnySequence :: ts))
  | s, Token.AnyChar :: ts =>
    (match s with
     | [] => false
     | _ :: s' => recMatch s' ts)
  | s, Token.LiteralSequence v :: ts =>
    if litHere s v then recMatch (s.drop v.length) ts else false
  | _, Token.CharacterSet _ :: _ => false
  termination_by s ts => (s.length, ts.length)
  decreasing_by
  all_goals simp_all only [List.length_drop, List.length_cons, Prod.lex_iff, true_and]
  all_goals omega

/-- `RecursiveSolver::isMatch` with the profiling instrumentation: the
threaded `depth` argument and the running `max_depth` (second component),
updated at entry to every call, with the source's short-circuit order. -/
def recMatchD : List Char → List Token → Nat → Bool × Nat
  | s, [], d => (s.isEmpty, d)
  | s, Token.AnySequence :: ts, d =>
    let r₁ := recMatchD s ts (d + 1)
    if r₁.1 then (true, max d r₁.2)
    else
      (match s with
       | [] => (false, max d r₁.2)
       | _ :: s' =>
         let r₂ := recMatchD s' (Token.AnySequence :: ts) (d + 1)
         (r₂.1, max d (max r₁.2 r₂.2)))
  | s, Token.AnyChar :: ts, d =>
    (match s with
     | [] => (false, d)
     | _ :: s' =>
       let r := recMatchD s' ts (d + 1)
       (r.1, max d r.2))
  | s, Token.LiteralSequence v :: ts, d =>
    if litHere s v then
      let r := recMatchD (s.drop v.length) ts (d + 1)
      (r.1, max d r.2)
    else (false, d)
  | _, Token.CharacterSet _ :: _, d => (false, d)
  termination_by s ts _ => (s.length, ts.length)
  decreasing_by
  all_goals simp_all only [List.length_drop, List.length_cons, Prod.lex_iff, true_and]
  all_goals omega

/-! ## Memoized recursion (include/solvers/memo.hpp)

`MemoSolver` keys its cache by `(textIndex, tokenIndex)` over fixed
`s`, `p_tokens`; on suffixes the pair `(suffix length of s, suffix length
of tokens)` is the same key up to the fixed bijection `i ↦ m - i`.
The cache is a key-value store (the source uses a dense
`vector<vector<optional<bool>>>`). -/

/-- The memoization cache of `MemoSolver`. -/
abbrev Memo := List ((Nat × Nat) × Bool)

/-- Cache lookup (`memo[i][j].has_value()` / `*memo[i][j]`). -/
def memoFind (c : Memo) (k : Nat × Nat) : Option Bool :=
  match c.find? (fun e => e.1 = k) with
  | some e => some e.2
  | none => none

/-- `MemoSolver::isMatch`: look up the subproblem, otherwise compute the
same branching as the recursive solver and store the outcome before
returning.  The recursion is paced by a structural `fuel` argument; every
recursive call decreases `s.length + ts.length`, so any fuel above that
sum reproduces the source's (unbounded) recursion exactly —
`memoGo_correct` is proved for every such fuel.  The `APP_UNREACHABLE`
branch for `CharacterSet` (undefined behaviour in the source) is modelled
as `false`, matching the other solvers' fall-through. -/
def memoGo : Nat → List Char → List Token → Memo → Bool × Memo
  | 0, _, _, c => (false, c)
  | fuel + 1, s, ts, c =>
    match memoFind c (s.length, ts.length) with
    | some b => (b, c)
    | none =>
      let r : Bool × Memo :=
        match s, ts with
        | s, [] => (s.isEmpty, c)
        | s, Token.AnySequence :: ts' =>
          let r₁ := memoGo fuel s ts' c
          if r₁.1 then (true, r₁.2)
          else
            match s with
            | [] => (false, r₁.2)
            | _ :: s' => memoGo fuel s' (Token.AnySequence :: ts') r₁.2
        | s, Token.AnyChar :: ts' =>
          match s with
          | [] => (false, c)
          | _ :: s' => memoGo fuel s' ts' c
        | s, Token.LiteralSequence v :: ts' =>
          if litHere s v then memoGo fuel (s.drop v.length) ts' c else (false, c)
        | _, Token.CharacterSet _ :: _ => (false, c)
      (r.1, ((s.length, ts.length), r.1) :: r.2)

/-- `MemoSolver::isMatch(0, 0, 0)` starting from the empty cache. -/
def memoMatch (s : List Char) (ts : List Token) : Bool :=
  (memoGo (s.length + ts.length + 1) s ts []).1

/-! ## Dense dynamic programming (src/solvers/dp.cpp)

`DpSolver::isMatch` fills an `(m+1) × (n+1)` table of `DpState` cells
(`Match` / `NoMatch`, modelled as `Bool`), row by row, each row left to
right.  We build the same table: `dpRows` accumulates the rows of the
table, `dpRowAux` the cells of one row. -/

/-- Reading `dp[a][b]` while row `i = rows.length` is still being built:
finished rows come from `rows`, the current row prefix from `cur`. -/
def tGet (rows : List (List Bool)) (cur : List Bool) (a b : Nat) : Bool :=
  if a < rows.length then (rows.getD a []).getD b false else cur.getD b false

/-- The literal check of `DpSolver`:
`i >= literal_len && s.compare(i - literal_len, literal_len, literal) == 0`. -/
def litEndingAt (s : List Char) (i : Nat) (v : List Char) : Bool :=
  v.length ≤ i && (s.drop (i - v.length)).take v.length = v

/-- One cell `dp[i][j]` (for `i ≥ 1`, `j ≥ 1`) of `DpSolver::isMatch`:
the switch over the current token `p_tokens[j-1]`.  `CharacterSet` hits
`APP_UNREACHABLE` in the source; modelled as the `NoMatch` cell the table
was initialised with. -/
def dpCell (s : List Char) (ts : List Token) (rows : List (List Bool))
    (cur : List Bool) (i j : Nat) : Bool :=
  match ts.getD (j - 1) Token.AnyChar with
  | Token.AnySequence => tGet rows cur i (j - 1) || tGet rows cur (i - 1) j
  | Token.AnyChar => tGet rows cur (i - 1) (j - 1)
  | Token.LiteralSequence v =>
    if litEndingAt s i v then tGet rows cur (i - v.length) (j - 1) else false
  | Token.CharacterSet _ => false

/-- Row 0 of the table (`dp[0][0] = Match`; `dp[0][j] = dp[0][j-1]` for an
`AnySequence` token, otherwise the initial `NoMatch`), built left to right
up to column `j`. -/
def dpRow0Aux (ts : List Token) : Nat → List Bool
  | 0 => [true]
  | j + 1 =>
    let cur := dpRow0Aux ts j
    cur ++ [if ts.getD j Token.AnyChar = Token.AnySequence then cur.getD j false else false]

/-- Row `i ≥ 1` of the table, built left to right up to column `j`;
`dp[i][0]` keeps its initial `NoMatch`. -/
def dpRowAux (s : List Char) (ts : List Token) (rows : List (List Bool)) (i : Nat) :
    Nat → List Bool
  | 0 => [false]
  | j + 1 =>
    let cur := dpRowAux s ts rows i j
    cur ++ [dpCell s ts rows cur i (j + 1)]

/-- The table rows `0 .. i` of `DpSolver::isMatch` (the outer loop). -/
def dpRows (s : List Char) (ts : List Token) : Nat → List (List Bool)
  | 0 => [dpRow0Aux ts ts.length]
  | i + 1 =>
    let rows := dpRows s ts i
    rows ++ [dpRowAux s ts rows (i + 1) ts.length]

/-- `DpSolver::isMatch`: build the full table and return `dp[m][n]`. -/
def dpMatch (s : List Char) (ts : List Token) : Bool :=
  ((dpRows s ts s.length).getD s.length []).getD ts.length false

/-! ## Single-row state-machine solver (include/nfa_solver.hpp)

`NFASolver::isMatch` works directly on the raw pattern characters `p`
(`'*'`, `'?'`, and literal characters), keeping a single row `dp[0..n]`
that it updates per text character. -/

/-- The initialisation loop of `NFASolver::isMatch`:
`dp[j] = dp[j-1]` when `p[j-1] == '*'`, else the initial `false`;
`prev` is `dp[j-1]`. -/
def nfaInitAux (prev : Bool) : List Char → List Bool
  | [] => []
  | c :: rest =>
    let v := if c = '*' then prev else false
    v :: nfaInitAux v rest

/-- The initial row (`dp[0] = true`, then the cascade). -/
def nfaRow0 (p : List Char) : List Bool :=
  true :: nfaInitAux true p

/-- The inner loop of `NFASolver::isMatch` for one text character `c`:
walks the old row (`dp[i-1]`) and the pattern in lockstep.  `pre` is the
old `dp[j-1]` (i.e. `dp[i-1][j-1]`), `left` the newly written `dp[j-1]`.
The row always has pattern length plus one entries, so the mismatched
final arm is never reached; it returns the empty rest. -/
def nfaStepAux (c : Char) : Bool → Bool → List Bool → List Char → List Bool
  | _, _, [], _ => []
  | _, _, _ :: _, [] => []
  | pre, left, oldj :: oldRest, pc :: pRest =>
    let newj :=
      if pc = '*' then left || oldj
      else if pc = '?' || pc = c then pre
      else false
    newj :: nfaStepAux c oldj newj oldRest pRest

/-- One iteration of the outer loop of `NFASolver::isMatch`: `pre` starts
as the old `dp[0]`, `dp[0]` is set to `false`, then the inner loop. -/
def nfaStep (p : List Char) (row : List Bool) (c : Char) : List Bool :=
  match row with
  | [] => []
  | d0 :: rest => false :: nfaStepAux c d0 false rest p

/-- `NFASolver::isMatch`: fold the text over the row updates and read
`dp[n]`. -/
def nfaMatch (s p : List Char) : Bool :=
  ((s.foldl (nfaStep p) (nfaRow0 p)).getLast?).getD false

/-! ## Two-pointer greedy backtracking (src/solvers/greedy.cpp)

`GreedySolver::isMatch` keeps a text cursor `sIdx`, a token cursor `pIdx`
and at most one remembered `BacktrackPoint {star_p_idx, s_match_idx}`. -/

/-- An upper bound on the number of remaining loop iterations from a given
state: the remembered match position (or the text cursor when no backtrack
point exists) never decreases and strictly increases at every backtrack,
and the token cursor strictly increases between backtracks. -/
def greedyFuel (s : List Char) (ts : List Token) (sIdx pIdx : Nat)
    (bp : Option (Nat × Nat)) : Nat :=
  (s.length - (match bp with
    | some q => min q.2 sIdx
    | none => sIdx)) * (ts.length + 1) + (ts.length - pIdx)

/-- The `while (s_idx < m)` loop of `GreedySolver::isMatch`, followed by
the trailing-`AnySequence` consumption once the text is exhausted.
A `CharacterSet` token matches no case of the source's switch and falls
through to the backtracking code.  The loop is paced by a structural
`fuel` argument; `greedyFuel` strictly decreases at every iteration, so
any fuel above it reproduces the source's unbounded loop exactly
(`greedyLoop_iff` is proved for every such fuel). -/
def greedyLoop (s : List Char) (ts : List Token) :
    Nat → Nat → Nat → Option (Nat × Nat) → Bool
  | 0, _, _, _ => false
  | fuel + 1, sIdx, pIdx, bp =>
    if sIdx < s.length then
      -- Case 1: if there is a pattern token, try to match it.
      if pIdx < ts.length then
        match ts.getD pIdx (Token.CharacterSet []) with
        | Token.AnyChar => greedyLoop s ts fuel (sIdx + 1) (pIdx + 1) bp
        | Token.LiteralSequence v =>
          if litHere (s.drop sIdx) v then
            greedyLoop s ts fuel (sIdx + v.length) (pIdx + 1) bp
          else
            match bp with
            | some (ps, sm) => greedyLoop s ts fuel (sm + 1) (ps + 1) (some (ps, sm + 1))
            | none => false
        | Token.AnySequence => greedyLoop s ts fuel sIdx (pIdx + 1) (some (pIdx, sIdx))
        | Token.CharacterSet _ =>
          match bp with
          | some (ps, sm) => greedyLoop s ts fuel (sm + 1) (ps + 1) (some (ps, sm + 1))
          | none => false
      else
        -- Case 2 / 3: mismatch with the pattern exhausted.
        match bp with
        | some (ps, sm) => greedyLoop s ts fuel (sm + 1) (ps + 1) (some (ps, sm + 1))
        | none => false
    else
      -- Text exhausted: skip trailing `AnySequence` tokens, succeed iff the
      -- pattern is fully consumed.
      (ts.drop pIdx).dropWhile (fun t => decide (t = Token.AnySequence)) = []

/-- `GreedySolver::isMatch`. -/
def greedyMatch (s : List Char) (ts : List Token) : Bool :=
  greedyLoop s ts (greedyFuel s ts 0 0 none + 1) 0 0 none

/-! ## The canonical matching semantics (spec §4.3)

`Matches s ts` is the common contract all strategies implement:
a literal consumes exactly its value, `AnyChar` consumes exactly one
character, `AnySequence` consumes any (possibly empty) prefix.
`CharacterSet` matches nothing (every solver treats it as a dead branch). -/

/-- The declarative matching relation. -/
inductive Matches : List Char → List Token → Prop where
  | nil : Matches [] []
  | lit (v : List Char) {s : List Char} {ts : List Token} :
      Matches s ts → Matches (v ++ s) (Token.LiteralSequence v :: ts)
  | anyChar (c : Char) {s : List Char} {ts : List Token} :
      Matches s ts → Matches (c :: s) (Token.AnyChar :: ts)
  | anySeq (w : List Char) {s : List Char} {ts : List Token} :
      Matches s ts → Matches (w ++ s) (Token.AnySequence :: ts)

/-- Token lists produced by the parser never contain an empty literal. -/
def NoEmptyLit (ts : List Token) : Prop :=
  ∀ v : List Char, Token.LiteralSequence v ∈ ts → v ≠ []

/-- Token lists produced by the parser never contain a `CharacterSet`. -/
def NoCharSet (ts : List Token) : Prop :=
  ∀ cs : List Bool, Token.CharacterSet cs ∉ ts

/-- All cached answers agree with the recursive solver; keys are the
suffix lengths over the fixed top-level `(s₀, ts₀)`. -/
def memoGood (s₀ : List Char) (ts₀ : List Token) (c : Memo) : Prop :=
  ∀ a b r, memoFind c (a, b) = some r →
    r = recMatch (s₀.drop (s₀.length - a)) (ts₀.drop (ts₀.length - b))

/-! ### The spec's dense DP recurrence (spec §4.3.4 wording)

`dpSpec` is written from the specification text, independently of the
table-filling loop, to compare the two: base `dp[0][0] = true`; for
`i = 0`, `dp[0][j] = dp[0][j-1]` iff token `j` is `AnySequence`;
`AnySequence → dp[i][j-1] ∨ dp[i-1][j]`, `AnyChar → dp[i-1][j-1]`,
`LiteralSequence` of length `L` requires `i ≥ L` and substring equality
then `dp[i-L][j-1]`.  (The spec defines no transition for `CharacterSet`;
the comparison theorem assumes the token list has none.) -/
def dpSpec (s : List Char) (ts : List Token) : Nat → Nat → Bool
  | 0, 0 => true
  | 0, j + 1 =>
    if ts.getD j Token.AnyChar = Token.AnySequence then dpSpec s ts 0 j else false
  | _ + 1, 0 => false
  | i + 1, j + 1 =>
    match ts.getD j Token.AnyChar with
    | Token.AnySequence => dpSpec s ts (i + 1) j || dpSpec s ts i (j + 1)
    | Token.AnyChar => dpSpec s ts i j
    | Token.LiteralSequence v =>
      if litEndingAt s (i + 1) v then dpSpec s ts (i + 1 - v.length) j else false
    | Token.CharacterSet _ => false
  termination_by i j => (i, j)
  decreasing_by
  all_goals simp_all only [Prod.lex_iff, true_and]
  all_goals omega

/-! ### Correctness of the greedy solver

The loop invariant records: the committed prefix (text before the
remembered match position `sm`) matches the tokens up to and including the
remembered `AnySequence`; the tokens strictly between that star and the
token cursor are star-free and have matched the text between `sm` and the
text cursor exactly.  The key semantic quantity is `greedyPost`: whether
the tokens after the remembered star can match some suffix starting at or
after `sm`. -/

/-- Token lists with no `AnySequence`. -/
def StarFree (A : List Token) : Prop :=
  ∀ t ∈ A, t ≠ Token.AnySequence

/-- The exact number of characters a star-free token list consumes. -/
def rigidLen : List Token → Nat
  | [] => 0
  | Token.AnyChar :: A => 1 + rigidLen A
  | Token.LiteralSequence v :: A => v.length + rigidLen A
  | Token.AnySequence :: A => rigidLen A
  | Token.CharacterSet _ :: A => rigidLen A

/-- The greedy loop invariant. -/
def greedyInv (s : List Char) (ts : List Token) :
    Nat → Nat → Option (Nat × Nat) → Prop
  | sIdx, pIdx, none =>
    sIdx ≤ s.length ∧ pIdx ≤ ts.length ∧
    StarFree (ts.take pIdx) ∧ Matches (s.take sIdx) (ts.take pIdx)
  | sIdx, pIdx, some (ps, sm) =>
    sIdx ≤ s.length ∧ pIdx ≤ ts.length ∧ ps < pIdx ∧ sm ≤ sIdx ∧
    ts.getD ps (Token.CharacterSet []) = Token.AnySequence ∧
    Matches (s.take sm) (ts.take (ps + 1)) ∧
    StarFree ((ts.take pIdx).drop (ps + 1)) ∧
    Matches ((s.take sIdx).drop sm) ((ts.take pIdx).drop (ps + 1))

/-- What a `true` answer of the greedy loop means semantically, relative to
the current backtrack point. -/
def greedyPost (s : List Char) (ts : List Token) :
    Nat → Nat → Option (Nat × Nat) → Prop
  | sIdx, pIdx, none => Matches (s.drop sIdx) (ts.drop pIdx)
  | _, _, some q => ∃ k, q.2 ≤ k ∧ Matches (s.drop k) (ts.drop (q.1 + 1))

/-! ### Parser lemmas

`cleanlyConsumed u` states that the parser consumes `u` without an escape
pair straddling its end (every backslash in `u` finds its partner inside
`u`); this formalises "position after `u` starts a fresh character".
`endsUnescStar u` states that the last character the parser treats as a
plain (unescaped) character in `u` is a `'*'`. -/

def cleanlyConsumed : List Char → Bool
  | [] => true
  | c :: rest =>
    if c = '\\' then
      match rest with
      | [] => false
      | _ :: rest2 => cleanlyConsumed rest2
    else cleanlyConsumed rest

def endsUnescStar : List Char → Bool
  | [] => false
  | c :: rest =>
    if c = '\\' then
      match rest with
      | [] => false
      | _ :: rest2 => endsUnescStar rest2
    else
      match rest with
      | [] => c = '*'
      | _ :: _ => endsUnescStar rest

/-! ### The parse-output token invariant (C6) -/

/-- A token the parser may emit: not a `CharacterSet`, and literals are
non-empty. -/
def TokenOK (t : Token) : Prop :=
  (∀ cs : List Bool, t ≠ Token.CharacterSet cs) ∧
    ∀ val : List Char, t = Token.LiteralSequence val → val ≠ []

/-- The parse-output invariant: every token is well formed and no two
adjacent tokens are both `AnySequence`. -/
def TokensOK (ts : List Token) : Prop :=
  (∀ t ∈ ts, TokenOK t) ∧
    List.Chain' (fun a b => ¬(a = Token.AnySequence ∧ b = Token.AnySequence)) ts

/-! ## Theorems -/

theorem Matches.star_cons {s : List Char} {ts : List Token}
    (h : Matches s ts) : Matches s (Token.AnySequence :: ts) :=
  Matches.anySeq [] h

theorem Matches.star_grow {x y : List Char} {ts : List Token}
    (h : Matches x (Token.AnySequence :: ts)) :
    Matches (y ++ x) (Token.AnySequence :: ts) := by
  cases h with
  | anySeq w h => rw [← List.append_assoc]; exact Matches.anySeq (y ++ w) h

theorem noEmptyLit_cons {t : Token} {ts : List Token} (h : NoEmptyLit (t :: ts)) :
    NoEmptyLit ts :=
  fun v hv => h v (List.mem_cons_of_mem _ hv)

theorem noCharSet_cons {t : Token} {ts : List Token} (h : NoCharSet (t :: ts)) :
    NoCharSet ts :=
  fun cs hcs => h cs (List.mem_cons_of_mem _ hcs)

theorem matches_nil_all_star {s : List Char} {ts : List Token} (h : Matches s ts) :
    NoEmptyLit ts → s = [] → ∀ t ∈ ts, t = Token.AnySequence := by
  induction h with
  | nil => intro _ _; simp
  | lit v h ih =>
    intro hne hs
    exact absurd (List.append_eq_nil.mp hs).1 (hne v (List.mem_cons_self _ _))
  | anyChar c h ih => intro _ hs; simp at hs
  | anySeq w h ih =>
    intro hne hs t ht
    obtain ⟨hw, hs'⟩ := List.append_eq_nil.mp hs
    rcases List.mem_cons.mp ht with rfl | ht
    · rfl
    · exact ih (noEmptyLit_cons hne) hs' t ht

theorem matches_nil_of_all_star {ts : List Token}
    (h : ∀ t ∈ ts, t = Token.AnySequence) : Matches [] ts := by
  induction ts with
  | nil => exact Matches.nil
  | cons t ts ih =>
    have ht := h t (List.mem_cons_self t ts)
    subst ht
    exact Matches.star_cons (ih fun u hu => h u (List.mem_cons_of_mem _ hu))

theorem matches_nil_iff {ts : List Token} (hne : NoEmptyLit ts) :
    Matches [] ts ↔ ∀ t ∈ ts, t = Token.AnySequence :=
  ⟨fun h => matches_nil_all_star h hne rfl, matches_nil_of_all_star⟩

theorem Matches.append {y z : List Char} {A B : List Token}
    (hy : Matches y A) (hz : Matches z B) : Matches (y ++ z) (A ++ B) := by
  induction hy with
  | nil => simpa using hz
  | lit v h ih => rw [List.append_assoc]; exact Matches.lit v ih
  | anyChar c h ih => exact Matches.anyChar c ih
  | anySeq w h ih => rw [List.append_assoc]; exact Matches.anySeq w ih

theorem matches_append_iff {x : List Char} {A B : List Token} :
    Matches x (A ++ B) ↔ ∃ y z, x = y ++ z ∧ Matches y A ∧ Matches z B := by
  constructor
  · intro h
    induction A generalizing x with
    | nil => exact ⟨[], x, rfl, Matches.nil, h⟩
    | cons t A ih =>
      cases h with
      | lit v h =>
        obtain ⟨y, z, rfl, hy, hz⟩ := ih h
        exact ⟨v ++ y, z, by rw [List.append_assoc], Matches.lit v hy, hz⟩
      | anyChar c h =>
        obtain ⟨y, z, rfl, hy, hz⟩ := ih h
        exact ⟨c :: y, z, rfl, Matches.anyChar c hy, hz⟩
      | anySeq w h =>
        obtain ⟨y, z, rfl, hy, hz⟩ := ih h
        exact ⟨w ++ y, z, by rw [List.append_assoc], Matches.anySeq w hy, hz⟩
  · rintro ⟨y, z, rfl, hy, hz⟩
    exact hy.append hz

/-- Inversion for a leading literal token. -/
theorem matches_lit_inv {x v : List Char} {ts : List Token}
    (h : Matches x (Token.LiteralSequence v :: ts)) :
    ∃ s', x = v ++ s' ∧ Matches s' ts := by
  cases h with
  | lit _ h => exact ⟨_, rfl, h⟩

/-- Inversion for a leading `AnyChar` token. -/
theorem matches_anyChar_inv {x : List Char} {ts : List Token}
    (h : Matches x (Token.AnyChar :: ts)) :
    ∃ c s', x = c :: s' ∧ Matches s' ts := by
  cases h with
  | anyChar c h => exact ⟨c, _, rfl, h⟩

/-- Inversion for a leading `AnySequence` token. -/
theorem matches_star_inv {x : List Char} {ts : List Token}
    (h : Matches x (Token.AnySequence :: ts)) :
    ∃ w s', x = w ++ s' ∧ Matches s' ts := by
  cases h with
  | anySeq w h => exact ⟨w, _, rfl, h⟩

/-- A `CharacterSet` token matches nothing. -/
theorem matches_cs_not {x : List Char} {cs : List Bool} {ts : List Token} :
    ¬ Matches x (Token.CharacterSet cs :: ts) := by
  intro h
  cases h

/-- Inversion for the empty token list. -/
theorem matches_nil_tokens {x : List Char} (h : Matches x []) : x = [] := by
  cases h
  rfl

theorem litHere_iff {s v : List Char} :
    litHere s v = true ↔ v.length ≤ s.length ∧ s.take v.length = v := by
  simp [litHere]

theorem litHere_decomp {s v : List Char} (h : litHere s v = true) :
    s = v ++ s.drop v.length := by
  obtain ⟨hlen, htake⟩ := litHere_iff.mp h
  conv_lhs => rw [← List.take_append_drop v.length s]
  rw [htake]

/-- The recursive backtracking solver decides the canonical semantics. -/
theorem recMatch_iff {s : List Char} {ts : List Token} :
    recMatch s ts = true ↔ Matches s ts := by
  induction s, ts using recMatch.induct with
  | case1 s =>
    rw [recMatch.eq_def]; dsimp only
    constructor
    · intro h
      rw [List.isEmpty_iff] at h
      subst h
      exact Matches.nil
    · intro h
      rw [matches_nil_tokens h, List.isEmpty_nil]
  | case2 s ts ih1 ih2 =>
    rw [recMatch.eq_def]; dsimp only
    constructor
    · intro h
      rcases Bool.or_eq_true_iff.mp h with h | h
      · exact Matches.star_cons (ih1.mp h)
      · cases s with
        | nil => simp at h
        | cons c s' =>
          simp only at ih2 h
          exact Matches.star_grow (y := [c]) (ih2.mp h)
    · intro h
      obtain ⟨w, s₀, rfl, hm⟩ := matches_star_inv h
      cases w with
      | nil => exact Bool.or_eq_true_iff.mpr (Or.inl (ih1.mpr hm))
      | cons c w' =>
        refine Bool.or_eq_true_iff.mpr (Or.inr ?_)
        simp only [List.cons_append] at ih2 ⊢
        exact ih2.mpr (Matches.anySeq w' hm)
  | case3 ts =>
    rw [recMatch.eq_def]; dsimp only
    constructor
    · intro h
      simp at h
    · intro h
      obtain ⟨c, s', hcs, _⟩ := matches_anyChar_inv h
      simp at hcs
  | case4 ts c s' ih =>
    rw [recMatch.eq_def]; dsimp only
    constructor
    · intro h
      exact Matches.anyChar c (ih.mp h)
    · intro h
      obtain ⟨c', s'', heq, hm⟩ := matches_anyChar_inv h
      injection heq with h1 h2
      subst h2
      exact ih.mpr hm
  | case5 s v ts hl ih =>
    rw [recMatch.eq_def]; dsimp only
    rw [if_pos hl]
    constructor
    · intro h
      conv_lhs => rw [litHere_decomp hl]
      exact Matches.lit v (ih.mp h)
    · intro h
      obtain ⟨s₀, heq, hm⟩ := matches_lit_inv h
      have hdrop : s.drop v.length = s₀ := by
        rw [heq, List.drop_left]
      rw [hdrop] at ih ⊢
      exact ih.mpr hm
  | case6 s v ts hl =>
    rw [recMatch.eq_def]; dsimp only
    rw [if_neg hl]
    constructor
    · intro h
      simp at h
    · intro h
      obtain ⟨s₀, rfl, hm⟩ := matches_lit_inv h
      exact absurd (by simp [litHere, List.take_left]) hl
  | case7 s cs ts =>
    rw [recMatch.eq_def]; dsimp only
    constructor
    · intro h
      simp at h
    · intro h
      exact absurd h matches_cs_not

/-- The instrumented solver computes the same match result. -/
theorem recMatchD_fst (s : List Char) (ts : List Token) (d : Nat) :
    (recMatchD s ts d).1 = recMatch s ts := by
  induction s, ts, d using recMatchD.induct with
  | case1 s d =>
    rw [recMatchD.eq_def, recMatch.eq_def]
  | case2 s ts d r₁ hr ih =>
    unfold r₁ at hr
    rw [recMatchD.eq_def, recMatch.eq_def]; dsimp only
    rw [if_pos hr, ← ih, hr]
    simp
  | case3 ts d r₁ hr ih =>
    unfold r₁ at hr
    rw [recMatchD.eq_def, recMatch.eq_def]; dsimp only
    rw [if_neg hr]
    have hb : recMatch [] ts = false := by
      rw [← ih]
      exact Bool.eq_false_iff.mpr hr
    simp [hb]
  | case4 ts d c2 rest2 r₁ hr ih1 ih2 =>
    unfold r₁ at hr
    rw [recMatchD.eq_def, recMatch.eq_def]; dsimp only
    rw [if_neg hr]
    dsimp only
    have h1 : recMatch (c2 :: rest2) ts = false := by
      rw [← ih1]
      exact Bool.eq_false_iff.mpr hr
    rw [h1, ih2]
    simp
  | case5 ts d =>
    rw [recMatchD.eq_def, recMatch.eq_def]
  | case6 ts d c2 rest2 ih =>
    rw [recMatchD.eq_def, recMatch.eq_def]; dsimp only
    exact ih
  | case7 s v ts d hl ih =>
    rw [recMatchD.eq_def, recMatch.eq_def]; dsimp only
    rw [if_pos hl, if_pos hl]
    exact ih
  | case8 s v ts d hl =>
    rw [recMatchD.eq_def, recMatch.eq_def]; dsimp only
    rw [if_neg hl, if_neg hl]
  | case9 x a tail d =>
    rw [recMatchD.eq_def, recMatch.eq_def]

/-- C10's bound: the `max_depth` the recursive solver records is at most the
entry depth plus text length plus token count. -/
theorem recMatchD_depth_le (s : List Char) (ts : List Token) (d : Nat) :
    (recMatchD s ts d).2 ≤ d + s.length + ts.length := by
  induction s, ts, d using recMatchD.induct with
  | case1 s d =>
    rw [recMatchD.eq_def]
    dsimp only
    omega
  | case2 s ts d r₁ hr ih =>
    unfold r₁ at hr
    rw [recMatchD.eq_def]; dsimp only
    rw [if_pos hr]
    dsimp only
    simp only [List.length_cons]
    omega
  | case3 ts d r₁ hr ih =>
    unfold r₁ at hr
    rw [recMatchD.eq_def]; dsimp only
    rw [if_neg hr]
    dsimp only
    simp only [List.length_cons, List.length_nil] at ih ⊢
    omega
  | case4 ts d c2 rest2 r₁ hr ih1 ih2 =>
    unfold r₁ at hr
    rw [recMatchD.eq_def]; dsimp only
    rw [if_neg hr]
    dsimp only
    simp only [List.length_cons] at ih1 ih2 ⊢
    omega
  | case5 ts d =>
    rw [recMatchD.eq_def]
    dsimp only
    omega
  | case6 ts d c2 rest2 ih =>
    rw [recMatchD.eq_def]; dsimp only
    simp only [List.length_cons] at ih ⊢
    omega
  | case7 s v ts d hl ih =>
    rw [recMatchD.eq_def]; dsimp only
    rw [if_pos hl]
    dsimp only
    simp only [List.length_cons, List.length_drop] at ih ⊢
    omega
  | case8 s v ts d hl =>
    rw [recMatchD.eq_def]; dsimp only
    rw [if_neg hl]
    dsimp only
    omega
  | case9 x a tail d =>
    rw [recMatchD.eq_def]
    dsimp only
    omega

/-! ### Equation lemmas for `recMatch` -/

theorem recMatch_nil (s : List Char) : recMatch s [] = s.isEmpty := by
  rw [recMatch.eq_def]

theorem recMatch_star (s : List Char) (ts : List Token) :
    recMatch s (Token.AnySequence :: ts) =
      (recMatch s ts ||
        match s with
        | [] => false
        | _ :: s' => recMatch s' (Token.AnySequence :: ts)) := by
  rw [recMatch.eq_def]

theorem recMatch_anyChar (s : List Char) (ts : List Token) :
    recMatch s (Token.AnyChar :: ts) =
      (match s with
       | [] => false
       | _ :: s' => recMatch s' ts) := by
  rw [recMatch.eq_def]

theorem recMatch_lit (s v : List Char) (ts : List Token) :
    recMatch s (Token.LiteralSequence v :: ts) =
      (if litHere s v then recMatch (s.drop v.length) ts else false) := by
  rw [recMatch.eq_def]

theorem recMatch_cs (s : List Char) (cs : List Bool) (ts : List Token) :
    recMatch s (Token.CharacterSet cs :: ts) = false := by
  rw [recMatch.eq_def]

/-! ### Correctness of the memoized solver -/

/-- A suffix of fixed length is unique. -/
theorem suffix_drop_eq {α : Type} {s s₀ : List α} (h : s <:+ s₀) :
    s₀.drop (s₀.length - s.length) = s := by
  obtain ⟨t, rfl⟩ := h
  have : (t ++ s).length - s.length = t.length := by
    simp
  rw [this, List.drop_left]

theorem memoFind_cons (k : Nat × Nat) (v : Bool) (c : Memo) (k' : Nat × Nat) :
    memoFind ((k, v) :: c) k' = if k = k' then some v else memoFind c k' := by
  by_cases h : k = k'
  · subst h
    simp [memoFind, List.find?]
  · simp [memoFind, List.find?, h]

theorem memoGood_insert {s₀ s : List Char} {ts₀ ts : List Token} {c : Memo} {r : Bool}
    (hg : memoGood s₀ ts₀ c) (hs : s <:+ s₀) (hts : ts <:+ ts₀)
    (hval : r = recMatch s ts) :
    memoGood s₀ ts₀ (((s.length, ts.length), r) :: c) := by
  intro a b r' hfind
  rw [memoFind_cons] at hfind
  split at hfind
  · rename_i hk
    obtain ⟨ha, hb⟩ := Prod.mk.injEq .. ▸ hk
    injection hfind with hr
    subst hr
    rw [← ha, ← hb, suffix_drop_eq hs, suffix_drop_eq hts]
    exact hval
  · exact hg a b r' hfind

theorem memoGo_succ (fuel : Nat) (s : List Char) (ts : List Token) (c : Memo) :
    memoGo (fuel + 1) s ts c =
      match memoFind c (s.length, ts.length) with
      | some b => (b, c)
      | none =>
        let r : Bool × Memo :=
          match s, ts with
          | s, [] => (s.isEmpty, c)
          | s, Token.AnySequence :: ts' =>
            let r₁ := memoGo fuel s ts' c
            if r₁.1 then (true, r₁.2)
            else
              match s with
              | [] => (false, r₁.2)
              | _ :: s' => memoGo fuel s' (Token.AnySequence :: ts') r₁.2
          | s, Token.AnyChar :: ts' =>
            match s with
            | [] => (false, c)
            | _ :: s' => memoGo fuel s' ts' c
          | s, Token.LiteralSequence v :: ts' =>
            if litHere s v then memoGo fuel (s.drop v.length) ts' c else (false, c)
          | _, Token.CharacterSet _ :: _ => (false, c)
        (r.1, ((s.length, ts.length), r.1) :: r.2) := rfl

theorem memoGo_correct (s₀ : List Char) (ts₀ : List Token) :
    ∀ (fuel : Nat) (s : List Char) (ts : List Token) (c : Memo),
      s.length + ts.length < fuel → s <:+ s₀ → ts <:+ ts₀ → memoGood s₀ ts₀ c →
      (memoGo fuel s ts c).1 = recMatch s ts ∧
        memoGood s₀ ts₀ (memoGo fuel s ts c).2 := by
  intro fuel
  induction fuel with
  | zero => intro s ts c hlen; omega
  | succ n ih =>
    intro s ts c hlen hs hts hg
    rw [memoGo_succ]
    cases hfind : memoFind c (s.length, ts.length) with
    | some b =>
      refine ⟨?_, hg⟩
      have := hg _ _ _ hfind
      simpa [suffix_drop_eq hs, suffix_drop_eq hts] using this
    | none =>
      dsimp only
      cases ts with
      | nil =>
        refine ⟨by rw [recMatch_nil], ?_⟩
        exact memoGood_insert hg hs hts (by rw [recMatch_nil])
      | cons t ts' =>
        have hts' : ts' <:+ ts₀ := (List.suffix_cons t ts').trans hts
        cases t with
        | AnySequence =>
          have h1 := ih s ts' c (by simp at hlen ⊢; omega) hs hts' hg
          cases hr1 : (memoGo n s ts' c).1 with
          | true =>
            simp only [hr1, if_true]
            have hrec : recMatch s (Token.AnySequence :: ts') = true := by
              rw [recMatch_star, ← h1.1, hr1]
              simp
            exact ⟨hrec.symm, memoGood_insert h1.2 hs hts hrec.symm⟩
          | false =>
            simp only [hr1, Bool.false_eq_true, if_false]
            cases s with
            | nil =>
              have hrec : recMatch [] (Token.AnySequence :: ts') = false := by
                rw [recMatch_star]
                have hfalse : recMatch [] ts' = false := by rw [← h1.1, hr1]
                simp [hfalse]
              exact ⟨hrec.symm, memoGood_insert h1.2 hs hts hrec.symm⟩
            | cons c2 s' =>
              have hs' : s' <:+ s₀ := (List.suffix_cons c2 s').trans hs
              have h2 := ih s' (Token.AnySequence :: ts') (memoGo n (c2 :: s') ts' c).2
                (by simp at hlen ⊢; omega) hs' hts h1.2
              have hrec : recMatch (c2 :: s') (Token.AnySequence :: ts') =
                  (memoGo n s' (Token.AnySequence :: ts')
                    (memoGo n (c2 :: s') ts' c).2).1 := by
                rw [recMatch_star]
                have hfalse : recMatch (c2 :: s') ts' = false := by
                  rw [← h1.1, hr1]
                rw [hfalse, h2.1]
                simp
              exact ⟨hrec.symm, memoGood_insert h2.2 hs hts hrec.symm⟩
        | AnyChar =>
          cases s with
          | nil =>
            have hrec : recMatch [] (Token.AnyChar :: ts') = false := by
              rw [recMatch_anyChar]
            exact ⟨hrec.symm, memoGood_insert hg hs hts hrec.symm⟩
          | cons c2 s' =>
            have hs' : s' <:+ s₀ := (List.suffix_cons c2 s').trans hs
            have h1 := ih s' ts' c (by simp at hlen ⊢; omega) hs' hts' hg
            have hrec : recMatch (c2 :: s') (Token.AnyChar :: ts') = (memoGo n s' ts' c).1 := by
              rw [recMatch_anyChar, h1.1]
            exact ⟨hrec.symm, memoGood_insert h1.2 hs hts hrec.symm⟩
        | LiteralSequence v =>
          by_cases hl : litHere s v
          · simp only [hl, if_true]
            have hdropsuffix : s.drop v.length <:+ s₀ := (List.drop_suffix _ _).trans hs
            have h1 := ih (s.drop v.length) ts' c
              (by simp only [List.length_drop, List.length_cons] at hlen ⊢; omega)
              hdropsuffix hts' hg
            have hrec : recMatch s (Token.LiteralSequence v :: ts') =
                (memoGo n (s.drop v.length) ts' c).1 := by
              rw [recMatch_lit, if_pos hl, h1.1]
            exact ⟨hrec.symm, memoGood_insert h1.2 hs hts hrec.symm⟩
          · simp only [hl, if_false]
            have hrec : recMatch s (Token.LiteralSequence v :: ts') = false := by
              rw [recMatch_lit, if_neg hl]
            exact ⟨hrec.symm, memoGood_insert hg hs hts hrec.symm⟩
        | CharacterSet cs =>
          have hrec : recMatch s (Token.CharacterSet cs :: ts') = false := by
            rw [recMatch_cs]
          exact ⟨hrec.symm, memoGood_insert hg hs hts hrec.symm⟩

/-- The memoized solver agrees with the recursive solver. -/
theorem memoMatch_eq_recMatch (s : List Char) (ts : List Token) :
    memoMatch s ts = recMatch s ts := by
  have h := memoGo_correct s ts (s.length + ts.length + 1) s ts []
    (by omega) List.suffix_rfl List.suffix_rfl
    (by intro a b r h; simp [memoFind] at h)
  exact h.1

/-! ### The built table agrees with the recurrence -/

theorem getD_snoc_lt {α : Type} (l : List α) (x d : α) {k : Nat} (h : k < l.length) :
    (l ++ [x]).getD k d = l.getD k d := by
  rw [List.getD_append _ _ _ _ h]

theorem getD_snoc_eq {α : Type} (l : List α) (x d : α) :
    (l ++ [x]).getD l.length d = x := by
  rw [List.getD_eq_getElem?_getD]
  simp

theorem getD_snoc_eq' {α : Type} (l : List α) (x d : α) {k : Nat} (h : k = l.length) :
    (l ++ [x]).getD k d = x := by
  subst h
  exact getD_snoc_eq l x d

theorem dpRow0Aux_length (ts : List Token) (j : Nat) :
    (dpRow0Aux ts j).length = j + 1 := by
  induction j with
  | zero => rfl
  | succ j ih => simp [dpRow0Aux, ih]

theorem dpRowAux_length (s : List Char) (ts : List Token) (rows : List (List Bool))
    (i j : Nat) : (dpRowAux s ts rows i j).length = j + 1 := by
  induction j with
  | zero => rfl
  | succ j ih => simp [dpRowAux, ih]

theorem dpRows_length (s : List Char) (ts : List Token) (i : Nat) :
    (dpRows s ts i).length = i + 1 := by
  induction i with
  | zero => rfl
  | succ i ih => simp [dpRows, ih]

/-- Cells already written never change as the row grows. -/
theorem dpRow0Aux_getD_mono (ts : List Token) {j j' k : Nat} (hj : j ≤ j') (hk : k ≤ j) :
    (dpRow0Aux ts j').getD k false = (dpRow0Aux ts j).getD k false := by
  induction j' with
  | zero =>
    have : j = 0 := by omega
    subst this; rfl
  | succ j' ih =>
    rcases Nat.lt_or_ge j (j' + 1) with h | h
    · rw [show dpRow0Aux ts (j' + 1) =
        dpRow0Aux ts j' ++ [if ts.getD j' Token.AnyChar = Token.AnySequence then
          (dpRow0Aux ts j').getD j' false else false] from rfl]
      rw [getD_snoc_lt _ _ _ (by rw [dpRow0Aux_length]; omega)]
      exact ih (by omega)
    · have : j = j' + 1 := by omega
      subst this; rfl

theorem dpRowAux_getD_mono (s : List Char) (ts : List Token) (rows : List (List Bool))
    (i : Nat) {j j' k : Nat} (hj : j ≤ j') (hk : k ≤ j) :
    (dpRowAux s ts rows i j').getD k false = (dpRowAux s ts rows i j).getD k false := by
  induction j' with
  | zero =>
    have : j = 0 := by omega
    subst this; rfl
  | succ j' ih =>
    rcases Nat.lt_or_ge j (j' + 1) with h | h
    · rw [show dpRowAux s ts rows i (j' + 1) =
        dpRowAux s ts rows i j' ++
          [dpCell s ts rows (dpRowAux s ts rows i j') i (j' + 1)] from rfl]
      rw [getD_snoc_lt _ _ _ (by rw [dpRowAux_length]; omega)]
      exact ih (by omega)
    · have : j = j' + 1 := by omega
      subst this; rfl

/-- Earlier rows of the table are stable as more rows are appended. -/
theorem dpRows_getD_mono (s : List Char) (ts : List Token) {i i' a : Nat}
    (hi : i ≤ i') (ha : a ≤ i) :
    (dpRows s ts i').getD a [] = (dpRows s ts i).getD a [] := by
  induction i' with
  | zero =>
    have : i = 0 := by omega
    subst this; rfl
  | succ i' ih =>
    rcases Nat.lt_or_ge i (i' + 1) with h | h
    · rw [show dpRows s ts (i' + 1) =
        dpRows s ts i' ++ [dpRowAux s ts (dpRows s ts i') (i' + 1) ts.length] from rfl]
      rw [getD_snoc_lt _ _ _ (by rw [dpRows_length]; omega)]
      exact ih (by omega)
    · have : i = i' + 1 := by omega
      subst this; rfl

theorem dpSpec_zero_zero (s : List Char) (ts : List Token) : dpSpec s ts 0 0 = true := by
  rw [dpSpec]

theorem dpSpec_zero_succ (s : List Char) (ts : List Token) (j : Nat) :
    dpSpec s ts 0 (j + 1) =
      if ts.getD j Token.AnyChar = Token.AnySequence then dpSpec s ts 0 j else false := by
  rw [dpSpec]

theorem dpSpec_succ_zero (s : List Char) (ts : List Token) (i : Nat) :
    dpSpec s ts (i + 1) 0 = false := by
  rw [dpSpec]

theorem dpSpec_succ_succ (s : List Char) (ts : List Token) (i j : Nat) :
    dpSpec s ts (i + 1) (j + 1) =
      match ts.getD j Token.AnyChar with
      | Token.AnySequence => dpSpec s ts (i + 1) j || dpSpec s ts i (j + 1)
      | Token.AnyChar => dpSpec s ts i j
      | Token.LiteralSequence v =>
        if litEndingAt s (i + 1) v then dpSpec s ts (i + 1 - v.length) j else false
      | Token.CharacterSet _ => false := by
  rw [dpSpec]

theorem dpRow0Aux_spec (s : List Char) (ts : List Token) :
    ∀ j k, k ≤ j → (dpRow0Aux ts j).getD k false = dpSpec s ts 0 k := by
  intro j
  induction j with
  | zero =>
    intro k hk
    interval_cases k
    rw [dpSpec_zero_zero]; rfl
  | succ j ih =>
    intro k hk
    rcases Nat.lt_or_ge k (j + 1) with h | h
    · rw [show dpRow0Aux ts (j + 1) =
        dpRow0Aux ts j ++ [if ts.getD j Token.AnyChar = Token.AnySequence then
          (dpRow0Aux ts j).getD j false else false] from rfl]
      rw [getD_snoc_lt _ _ _ (by rw [dpRow0Aux_length]; omega)]
      exact ih k (by omega)
    · have hkj : k = j + 1 := by omega
      subst hkj
      rw [show dpRow0Aux ts (j + 1) =
        dpRow0Aux ts j ++ [if ts.getD j Token.AnyChar = Token.AnySequence then
          (dpRow0Aux ts j).getD j false else false] from rfl]
      rw [getD_snoc_eq' _ _ _ (by rw [dpRow0Aux_length]), dpSpec_zero_succ]
      rw [ih j le_rfl]

theorem dpRowAux_spec (s : List Char) (ts : List Token) (i' : Nat)
    (rows : List (List Bool)) (hlen : rows.length = i' + 1)
    (hrows : ∀ a j', a ≤ i' → j' ≤ ts.length →
      (rows.getD a []).getD j' false = dpSpec s ts a j') :
    ∀ j, j ≤ ts.length → ∀ k, k ≤ j →
      (dpRowAux s ts rows (i' + 1) j).getD k false = dpSpec s ts (i' + 1) k := by
  intro j
  induction j with
  | zero =>
    intro _ k hk
    interval_cases k
    rw [dpSpec_succ_zero]; rfl
  | succ j ih =>
    intro hj k hk
    rcases Nat.lt_or_ge k (j + 1) with h | h
    · rw [show dpRowAux s ts rows (i' + 1) (j + 1) =
        dpRowAux s ts rows (i' + 1) j ++
          [dpCell s ts rows (dpRowAux s ts rows (i' + 1) j) (i' + 1) (j + 1)] from rfl]
      rw [getD_snoc_lt _ _ _ (by rw [dpRowAux_length]; omega)]
      exact ih (by omega) k (by omega)
    · have hkj : k = j + 1 := by omega
      subst hkj
      rw [show dpRowAux s ts rows (i' + 1) (j + 1) =
        dpRowAux s ts rows (i' + 1) j ++
          [dpCell s ts rows (dpRowAux s ts rows (i' + 1) j) (i' + 1) (j + 1)] from rfl]
      rw [getD_snoc_eq' _ _ _ (by rw [dpRowAux_length]), dpSpec_succ_succ]
      unfold dpCell
      simp only [Nat.add_sub_cancel]
      have hcur : ∀ k', k' ≤ j →
          (dpRowAux s ts rows (i' + 1) j).getD k' false = dpSpec s ts (i' + 1) k' :=
        fun k' hk' => ih (by omega) k' hk'
      have htcur : ∀ b, b ≤ j →
          tGet rows (dpRowAux s ts rows (i' + 1) j) (i' + 1) b = dpSpec s ts (i' + 1) b := by
        intro b hb
        unfold tGet
        rw [if_neg (by omega), hcur b hb]
      have htrow : ∀ a b, a ≤ i' → b ≤ ts.length →
          tGet rows (dpRowAux s ts rows (i' + 1) j) a b = dpSpec s ts a b := by
        intro a b ha hb
        unfold tGet
        rw [if_pos (by omega), hrows a b ha hb]
      cases htok : ts.getD j Token.AnyChar with
      | AnySequence =>
        dsimp only
        rw [htcur j (by omega), htrow i' (j + 1) le_rfl (by omega)]
      | AnyChar =>
        dsimp only
        rw [htrow i' j le_rfl (by omega)]
      | LiteralSequence v =>
        dsimp only
        by_cases hle : litEndingAt s (i' + 1) v
        · rw [if_pos hle, if_pos hle]
          rcases Nat.eq_zero_or_pos v.length with hv | hv
          · rw [hv, Nat.sub_zero, htcur j (by omega)]
          · rw [htrow (i' + 1 - v.length) j (by omega) (by omega)]
        · rw [if_neg hle, if_neg hle]
      | CharacterSet cs =>
        dsimp only

theorem dpRows_spec (s : List Char) (ts : List Token) :
    ∀ m i j, i ≤ m → j ≤ ts.length →
      ((dpRows s ts m).getD i []).getD j false = dpSpec s ts i j := by
  intro m
  induction m with
  | zero =>
    intro i j hi hj
    interval_cases i
    exact dpRow0Aux_spec s ts ts.length j hj
  | succ m ih =>
    intro i j hi hj
    rcases Nat.lt_or_ge i (m + 1) with h | h
    · rw [show dpRows s ts (m + 1) =
        dpRows s ts m ++ [dpRowAux s ts (dpRows s ts m) (m + 1) ts.length] from rfl]
      rw [getD_snoc_lt _ _ _ (by rw [dpRows_length]; omega)]
      exact ih i j (by omega) hj
    · have him : i = m + 1 := by omega
      subst him
      rw [show dpRows s ts (m + 1) =
        dpRows s ts m ++ [dpRowAux s ts (dpRows s ts m) (m + 1) ts.length] from rfl]
      rw [getD_snoc_eq' _ _ _ (by rw [dpRows_length])]
      exact dpRowAux_spec s ts m (dpRows s ts m) (dpRows_length s ts m)
        (fun a j' ha hj' => ih a j' ha hj') ts.length le_rfl j hj

/-- C5: the dense DP table computes exactly the spec's recurrence, and the
returned boolean is `dp[m][n]`. -/
theorem dpMatch_eq_dpSpec (s : List Char) (ts : List Token) :
    dpMatch s ts = dpSpec s ts s.length ts.length :=
  dpRows_spec s ts s.length s.length ts.length le_rfl le_rfl

/-! ### The recurrence decides prefix matching -/

theorem matches_single_star (z : List Char) : Matches z [Token.AnySequence] := by
  have h := Matches.anySeq z (Matches.nil)
  simpa using h

theorem matches_single_anyChar_iff {z : List Char} :
    Matches z [Token.AnyChar] ↔ ∃ c, z = [c] := by
  constructor
  · intro h
    obtain ⟨c, z₀, rfl, hz⟩ := matches_anyChar_inv h
    rw [matches_nil_tokens hz]
    exact ⟨c, rfl⟩
  · rintro ⟨c, rfl⟩
    exact Matches.anyChar c Matches.nil

theorem matches_single_lit_iff {z v : List Char} :
    Matches z [Token.LiteralSequence v] ↔ z = v := by
  constructor
  · intro h
    obtain ⟨z₀, rfl, hz⟩ := matches_lit_inv h
    rw [matches_nil_tokens hz, List.append_nil]
  · intro h
    rw [h]
    simpa using Matches.lit v (Matches.nil)

theorem matches_snoc_star {x : List Char} {A : List Token} :
    Matches x (A ++ [Token.AnySequence]) ↔
      ∃ k, k ≤ x.length ∧ Matches (x.take k) A := by
  rw [matches_append_iff]
  constructor
  · rintro ⟨y, z, rfl, hy, _⟩
    refine ⟨y.length, by simp, ?_⟩
    simpa [List.take_left] using hy
  · rintro ⟨k, hk, hm⟩
    exact ⟨x.take k, x.drop k, (List.take_append_drop k x).symm, hm, matches_single_star _⟩

theorem matches_snoc_anyChar {x : List Char} {A : List Token} :
    Matches x (A ++ [Token.AnyChar]) ↔ x ≠ [] ∧ Matches x.dropLast A := by
  rw [matches_append_iff]
  constructor
  · rintro ⟨y, z, rfl, hy, hz⟩
    obtain ⟨c, rfl⟩ := matches_single_anyChar_iff.mp hz
    refine ⟨by simp, ?_⟩
    rw [List.dropLast_concat]
    exact hy
  · rintro ⟨hne, hm⟩
    refine ⟨x.dropLast, [x.getLast hne], ?_, hm, matches_single_anyChar_iff.mpr ⟨_, rfl⟩⟩
    rw [List.dropLast_append_getLast hne]

theorem matches_snoc_lit {x v : List Char} {A : List Token} :
    Matches x (A ++ [Token.LiteralSequence v]) ↔
      v.length ≤ x.length ∧ x.drop (x.length - v.length) = v ∧
        Matches (x.take (x.length - v.length)) A := by
  rw [matches_append_iff]
  constructor
  · rintro ⟨y, z, rfl, hy, hz⟩
    have hzv := matches_single_lit_iff.mp hz
    rw [hzv]
    have hlen : (y ++ v).length - v.length = y.length := by simp
    refine ⟨by simp, ?_, ?_⟩
    · rw [hlen, List.drop_left]
    · rw [hlen, List.take_left]
      exact hy
  · rintro ⟨hlen, hdrop, hm⟩
    exact ⟨x.take (x.length - v.length), x.drop (x.length - v.length),
      (List.take_append_drop _ x).symm, hm, matches_single_lit_iff.mpr hdrop⟩

theorem matches_snoc_cs {x : List Char} {cs : List Bool} {A : List Token} :
    ¬ Matches x (A ++ [Token.CharacterSet cs]) := by
  intro h
  obtain ⟨y, z, rfl, hy, hz⟩ := matches_append_iff.mp h
  exact matches_cs_not hz

theorem take_succ_getD {α : Type} (l : List α) (d : α) {i : Nat} (h : i < l.length) :
    l.take (i + 1) = l.take i ++ [l.getD i d] := by
  rw [List.take_succ]
  congr 1
  rw [List.getElem?_eq_getElem h]
  simp [List.getD_eq_getElem?_getD, List.getElem?_eq_getElem h]

theorem noEmptyLit_take {ts : List Token} (hne : NoEmptyLit ts) (j : Nat) :
    NoEmptyLit (ts.take j) :=
  fun v hv => hne v (List.mem_of_mem_take hv)

/-- The spec's recurrence cell `dp[i][j]` decides "the first `i` characters
match the first `j` tokens". -/
theorem dpSpec_iff_matches (s : List Char) (ts : List Token) (hne : NoEmptyLit ts) :
    ∀ i j, i ≤ s.length → j ≤ ts.length →
      (dpSpec s ts i j = true ↔ Matches (s.take i) (ts.take j)) := by
  intro i j
  induction i, j using dpSpec.induct s ts with
  | case1 =>
    intro _ _
    constructor
    · intro _
      simpa using Matches.nil
    · intro _
      rw [dpSpec_zero_zero]
  | case2 j htok ih =>
    intro hi hj
    rw [dpSpec_zero_succ, if_pos htok, take_succ_getD ts Token.AnyChar (by omega), htok]
    simp only [List.take_zero]
    rw [matches_snoc_star]
    have ih' := ih hi (by omega)
    simp only [List.take_zero] at ih'
    simp only [List.length_nil, List.take_nil]
    constructor
    · intro h
      exact ⟨0, le_rfl, ih'.mp h⟩
    · rintro ⟨k, _, hm⟩
      exact ih'.mpr hm
  | case3 j htok =>
    intro hi hj
    rw [dpSpec_zero_succ, if_neg htok]
    simp only [List.take_zero, Bool.false_eq_true, false_iff]
    intro h
    have hall := matches_nil_all_star h (noEmptyLit_take hne (j + 1)) rfl
    have hmem : ts.getD j Token.AnyChar ∈ ts.take (j + 1) := by
      rw [take_succ_getD ts Token.AnyChar (by omega)]
      exact List.mem_append_right _ (List.mem_singleton.mpr rfl)
    exact htok (hall _ hmem)
  | case4 i =>
    intro hi hj
    rw [dpSpec_succ_zero]
    simp only [Bool.false_eq_true, false_iff, List.take_zero]
    intro h
    have hnil := matches_nil_tokens h
    have hlen := congrArg List.length hnil
    rw [List.length_take, List.length_nil] at hlen
    simp only [Nat.succ_eq_add_one] at hi
    omega
  | case5 i j htok ih1 ih2 =>
    intro hi hj
    simp only [Nat.succ_eq_add_one] at hi hj ⊢
    rw [dpSpec_succ_succ, htok]
    rw [take_succ_getD ts Token.AnyChar (by omega), htok]
    rw [matches_snoc_star]
    have hlen1 : (s.take (i + 1)).length = i + 1 := by
      rw [List.length_take]
      omega
    have hleni : (s.take i).length = i := by
      rw [List.length_take]
      omega
    constructor
    · intro h
      rcases Bool.or_eq_true_iff.mp h with h | h
      · refine ⟨i + 1, by omega, ?_⟩
        rw [List.take_take, min_self]
        exact (ih1 hi (by omega)).mp h
      · have hm := (ih2 (by omega) hj).mp h
        rw [take_succ_getD ts Token.AnyChar (by omega), htok, matches_snoc_star] at hm
        obtain ⟨k, hk, hm⟩ := hm
        rw [hleni] at hk
        refine ⟨k, by omega, ?_⟩
        rw [List.take_take, min_eq_left (by omega)]
        rw [List.take_take, min_eq_left hk] at hm
        exact hm
    · rintro ⟨k, hk, hm⟩
      rw [hlen1] at hk
      rw [List.take_take, min_eq_left hk] at hm
      rcases Nat.lt_or_ge k (i + 1) with hlt | hge
      · refine Bool.or_eq_true_iff.mpr (Or.inr ?_)
        refine (ih2 (by omega) hj).mpr ?_
        rw [take_succ_getD ts Token.AnyChar (by omega), htok, matches_snoc_star]
        refine ⟨k, by rw [hleni]; omega, ?_⟩
        rw [List.take_take, min_eq_left (by omega)]
        exact hm
      · have hki : k = i + 1 := by omega
        subst hki
        exact Bool.or_eq_true_iff.mpr (Or.inl ((ih1 hi (by omega)).mpr hm))
  | case6 i j htok ih =>
    intro hi hj
    simp only [Nat.succ_eq_add_one] at hi hj ⊢
    rw [dpSpec_succ_succ, htok]
    rw [take_succ_getD ts Token.AnyChar (by omega), htok]
    rw [take_succ_getD s 'a' (by omega)]
    rw [matches_snoc_anyChar, List.dropLast_concat]
    constructor
    · intro h
      exact ⟨by simp, (ih (by omega) (by omega)).mp h⟩
    · rintro ⟨_, hm⟩
      exact (ih (by omega) (by omega)).mpr hm
  | case7 i j v htok hle ih =>
    intro hi hj
    simp only [Nat.succ_eq_add_one] at hi hj ⊢
    rw [dpSpec_succ_succ, htok]
    dsimp only
    rw [if_pos hle]
    rw [take_succ_getD ts Token.AnyChar (by omega), htok]
    rw [matches_snoc_lit]
    obtain ⟨hvle, hsub⟩ := Bool.and_eq_true_iff.mp hle
    have hvle' : v.length ≤ i + 1 := by
      simpa using hvle
    have hsub' : (s.drop (i + 1 - v.length)).take v.length = v := of_decide_eq_true hsub
    have hlen1 : (s.take (i + 1)).length = i + 1 := by
      rw [List.length_take]
      omega
    have hdropTake : (s.take (i + 1)).drop (i + 1 - v.length) =
        (s.drop (i + 1 - v.length)).take v.length := by
      rw [List.drop_take]
      congr 1
      omega
    constructor
    · intro h
      refine ⟨by omega, ?_, ?_⟩
      · rw [hlen1, hdropTake]
        exact hsub'
      · rw [hlen1, List.take_take, min_eq_left (by omega)]
        exact (ih (by omega) (by omega)).mp h
    · rintro ⟨_, _, hm⟩
      rw [hlen1, List.take_take, min_eq_left (by omega)] at hm
      exact (ih (by omega) (by omega)).mpr hm
  | case8 i j v htok hle =>
    intro hi hj
    simp only [Nat.succ_eq_add_one] at hi hj ⊢
    rw [dpSpec_succ_succ, htok]
    dsimp only
    rw [if_neg hle]
    simp only [Bool.false_eq_true, false_iff]
    intro h
    rw [take_succ_getD ts Token.AnyChar (by omega), htok, matches_snoc_lit] at h
    obtain ⟨h1, h2, _⟩ := h
    have hlen1 : (s.take (i + 1)).length = i + 1 := by
      rw [List.length_take]
      omega
    rw [hlen1] at h1 h2
    have hdropTake : (s.take (i + 1)).drop (i + 1 - v.length) =
        (s.drop (i + 1 - v.length)).take v.length := by
      rw [List.drop_take]
      congr 1
      omega
    rw [hdropTake] at h2
    apply hle
    unfold litEndingAt
    rw [Bool.and_eq_true_iff]
    constructor
    · simpa using h1
    · exact decide_eq_true h2
  | case9 i j cs htok =>
    intro hi hj
    simp only [Nat.succ_eq_add_one] at hi hj ⊢
    rw [dpSpec_succ_succ, htok]
    simp only [Bool.false_eq_true, false_iff]
    intro h
    rw [take_succ_getD ts Token.AnyChar (by omega), htok] at h
    exact matches_snoc_cs h

/-- The dense DP solver decides the canonical semantics (for token lists
without empty literals). -/
theorem dpMatch_iff (s : List Char) (ts : List Token) (hne : NoEmptyLit ts) :
    dpMatch s ts = true ↔ Matches s ts := by
  rw [dpMatch_eq_dpSpec]
  have h := dpSpec_iff_matches s ts hne s.length ts.length le_rfl le_rfl
  rwa [List.take_length, List.take_length] at h

theorem dpMatch_eq_recMatch (s : List Char) (ts : List Token) (hne : NoEmptyLit ts) :
    dpMatch s ts = recMatch s ts :=
  Bool.eq_iff_iff.mpr ((dpMatch_iff s ts hne).trans recMatch_iff.symm)

theorem starFree_nil : StarFree [] := by
  intro t ht
  simp at ht

theorem starFree_append {A B : List Token} (hA : StarFree A) (hB : StarFree B) :
    StarFree (A ++ B) := by
  intro t ht
  rcases List.mem_append.mp ht with h | h
  · exact hA t h
  · exact hB t h

theorem matches_starFree_length {x : List Char} {A : List Token}
    (hm : Matches x A) (hsf : StarFree A) : x.length = rigidLen A := by
  induction hm with
  | nil => rfl
  | lit v h ih =>
    rw [rigidLen]
    simp only [List.length_append]
    rw [ih fun t ht => hsf t (List.mem_cons_of_mem _ ht)]
  | anyChar c h ih =>
    rw [rigidLen]
    simp only [List.length_cons]
    rw [ih fun t ht => hsf t (List.mem_cons_of_mem _ ht)]
    omega
  | anySeq w h ih =>
    exact absurd rfl (hsf Token.AnySequence (List.mem_cons_self _ _))

/-- Splitting a drop at an intermediate point. -/
theorem drop_split {α : Type} (l : List α) {a b : Nat} (hab : a ≤ b) (hb : a ≤ l.length) :
    (l.take b).drop a ++ l.drop b = l.drop a := by
  conv_rhs => rw [← List.take_append_drop b l]
  rw [List.drop_append_of_le_length]
  rw [List.length_take]
  omega

theorem litHere_prefix {x v : List Char} (h : litHere x v = true) :
    x = v ++ x.drop v.length :=
  litHere_decomp h

theorem litHere_append_self (v x : List Char) : litHere (v ++ x) v = true := by
  simp [litHere, List.take_left]

/-- `Matches` for a leading `AnyChar` over a cons. -/
theorem matches_cons_anyChar_iff {c : Char} {x : List Char} {R : List Token} :
    Matches (c :: x) (Token.AnyChar :: R) ↔ Matches x R := by
  constructor
  · intro h
    obtain ⟨c', x', heq, hm⟩ := matches_anyChar_inv h
    injection heq with h1 h2
    subst h2
    exact hm
  · exact Matches.anyChar c

/-- `Matches` for a leading literal over its own prefix. -/
theorem matches_cons_lit_iff {v x : List Char} {R : List Token} :
    Matches (v ++ x) (Token.LiteralSequence v :: R) ↔ Matches x R := by
  constructor
  · intro h
    obtain ⟨x', heq, hm⟩ := matches_lit_inv h
    have : x = x' := by
      have := List.append_cancel_left heq
      exact this
    rw [this]
    exact hm
  · exact Matches.lit v

/-- Appending one element to a slice. -/
theorem seg_succ {α : Type} (l : List α) (d : α) {a b : Nat} (hab : a ≤ b)
    (hb : b < l.length) :
    (l.take (b + 1)).drop a = (l.take b).drop a ++ [l.getD b d] := by
  rw [take_succ_getD l d hb]
  rw [List.drop_append_of_le_length]
  rw [List.length_take]
  omega

/-- Appending a block to a slice. -/
theorem seg_add {α : Type} (l : List α) {a b : Nat} (n : Nat) (hab : a ≤ b)
    (hb : b ≤ l.length) :
    (l.take (b + n)).drop a = (l.take b).drop a ++ (l.drop b).take n := by
  rw [List.take_add]
  rw [List.drop_append_of_le_length]
  rw [List.length_take]
  omega

/-- Recombining the committed prefix with a slice. -/
theorem take_append_seg {α : Type} (l : List α) {a b : Nat} (hab : a ≤ b) :
    l.take a ++ (l.take b).drop a = l.take b := by
  conv_rhs => rw [← List.take_append_drop a (l.take b)]
  rw [List.take_take, min_eq_left hab]

/-- Popping the current element of a drop. -/
theorem drop_cons_getD {α : Type} (l : List α) (d : α) {n : Nat} (h : n < l.length) :
    l.drop n = l.getD n d :: l.drop (n + 1) := by
  rw [List.drop_eq_getElem_cons h]
  rw [List.getD_eq_getElem?_getD, List.getElem?_eq_getElem h]
  rfl

/-- Lengths of slices. -/
theorem seg_length {α : Type} (l : List α) {a b : Nat} (hb : b ≤ l.length) :
    ((l.take b).drop a).length = b - a := by
  rw [List.length_drop, List.length_take]
  omega

/-- The committed prefix and the running star-free segment combine. -/
theorem greedyInv_matches_take {s : List Char} {ts : List Token}
    {sIdx pIdx ps sm : Nat}
    (h : greedyInv s ts sIdx pIdx (some (ps, sm))) :
    Matches (s.take sIdx) (ts.take pIdx) := by
  obtain ⟨hs, hp, hps, hsm, htok, hA2, hsf, hA3⟩ := h
  have h1 := hA2.append hA3
  rw [take_append_seg s hsm, take_append_seg ts (by omega)] at h1
  exact h1

/-- A star at `ps` can absorb a longer committed prefix. -/
theorem star_commit_grow {s : List Char} {ts : List Token} {ps sm sm' : Nat}
    (htok : ts.getD ps (Token.CharacterSet []) = Token.AnySequence)
    (hps : ps < ts.length) (hsm : sm ≤ sm') (hsm' : sm ≤ s.length)
    (h : Matches (s.take sm) (ts.take (ps + 1))) :
    Matches (s.take sm') (ts.take (ps + 1)) := by
  rw [take_succ_getD ts (Token.CharacterSet []) hps, htok] at h ⊢
  rw [matches_snoc_star] at h ⊢
  obtain ⟨k, hk, hm⟩ := h
  rw [List.length_take] at hk
  refine ⟨k, ?_, ?_⟩
  · rw [List.length_take]
    omega
  · rw [List.take_take, min_eq_left (by omega)] at hm ⊢
    exact hm

/-- If the suffix after the remembered star matched starting exactly at
`sm`, the star-free segment would consume exactly the text up to the
cursor, so the remaining tokens would match at the cursor. -/
theorem greedy_mid_refute {s : List Char} {ts : List Token} {sIdx pIdx ps sm : Nat}
    (hinv : greedyInv s ts sIdx pIdx (some (ps, sm)))
    (hM : Matches (s.drop sm) (ts.drop (ps + 1))) :
    Matches (s.drop sIdx) (ts.drop pIdx) := by
  obtain ⟨hsI, hpI, hps, hsm, htokstar, hA2, hsf, hA3⟩ := hinv
  rw [← drop_split ts (b := pIdx) (by omega) (by omega)] at hM
  obtain ⟨y, z, hyz, hy, hz⟩ := matches_append_iff.mp hM
  have hylen : y.length = rigidLen ((ts.take pIdx).drop (ps + 1)) :=
    matches_starFree_length hy hsf
  have hxlen : ((s.take sIdx).drop sm).length = rigidLen ((ts.take pIdx).drop (ps + 1)) :=
    matches_starFree_length hA3 hsf
  rw [seg_length s hsI] at hxlen
  have hzeq : z = s.drop sIdx := by
    have h1 := congrArg (List.drop y.length) hyz
    rw [List.drop_left, List.drop_drop] at h1
    rw [← h1]
    congr 1
    omega
  rw [hzeq] at hz
  exact hz

/-- Backtracking is complete: if a mismatch occurred at the cursor, the
current absorption `sm` cannot work, so the candidates start at `sm + 1`. -/
theorem greedyPost_backtrack_iff {s : List Char} {ts : List Token}
    {sIdx pIdx ps sm : Nat}
    (hinv : greedyInv s ts sIdx pIdx (some (ps, sm)))
    (hrefute : ¬ Matches (s.drop sIdx) (ts.drop pIdx)) :
    ((∃ k, sm ≤ k ∧ Matches (s.drop k) (ts.drop (ps + 1))) ↔
      (∃ k, sm + 1 ≤ k ∧ Matches (s.drop k) (ts.drop (ps + 1)))) := by
  constructor
  · rintro ⟨k, hk, hm⟩
    rcases Nat.eq_or_lt_of_le hk with rfl | hlt
    · exact absurd (greedy_mid_refute hinv hm) hrefute
    · exact ⟨k, by omega, hm⟩
  · rintro ⟨k, hk, hm⟩
    exact ⟨k, by omega, hm⟩

/-- The invariant survives a backtrack step. -/
theorem greedyInv_backtrack {s : List Char} {ts : List Token}
    {sIdx pIdx ps sm : Nat}
    (hinv : greedyInv s ts sIdx pIdx (some (ps, sm))) (hsIdx : sIdx < s.length) :
    greedyInv s ts (sm + 1) (ps + 1) (some (ps, sm + 1)) := by
  obtain ⟨hsI, hpI, hps, hsm, htokstar, hA2, hsf, hA3⟩ := hinv
  refine ⟨by omega, by omega, by omega, le_rfl, htokstar, ?_, ?_, ?_⟩
  · exact star_commit_grow htokstar (by omega) (by omega) (by omega) hA2
  · rw [List.drop_eq_nil_of_le (by rw [List.length_take]; omega)]
    exact starFree_nil
  · have h1 : (s.take (sm + 1)).drop (sm + 1) = [] :=
      List.drop_eq_nil_of_le (by rw [List.length_take]; omega)
    have h2 : (ts.take (ps + 1)).drop (ps + 1) = [] :=
      List.drop_eq_nil_of_le (by rw [List.length_take]; omega)
    rw [h1, h2]
    exact Matches.nil

/-- The invariant survives consuming an `AnyChar` token. -/
theorem greedyInv_anyChar {s : List Char} {ts : List Token} {sIdx pIdx : Nat}
    {bp : Option (Nat × Nat)}
    (hinv : greedyInv s ts sIdx pIdx bp) (hsIdx : sIdx < s.length)
    (hpIdx : pIdx < ts.length)
    (htok : ts.getD pIdx (Token.CharacterSet []) = Token.AnyChar) :
    greedyInv s ts (sIdx + 1) (pIdx + 1) bp := by
  have hone : Matches [s.getD sIdx 'a'] [Token.AnyChar] :=
    Matches.anyChar _ Matches.nil
  cases bp with
  | none =>
    obtain ⟨hsI, hpI, hsf, hA⟩ := hinv
    refine ⟨by omega, by omega, ?_, ?_⟩
    · rw [take_succ_getD ts (Token.CharacterSet []) hpIdx, htok]
      refine starFree_append hsf ?_
      intro t ht
      rw [List.mem_singleton.mp ht]
      simp
    · rw [take_succ_getD ts (Token.CharacterSet []) hpIdx, htok,
        take_succ_getD s 'a' hsIdx]
      exact hA.append hone
  | some q =>
    obtain ⟨ps, sm⟩ := q
    obtain ⟨hsI, hpI, hps, hsm, htokstar, hA2, hsf, hA3⟩ := hinv
    refine ⟨by omega, by omega, by omega, by omega, htokstar, hA2, ?_, ?_⟩
    · rw [seg_succ ts (Token.CharacterSet []) (by omega) hpIdx, htok]
      refine starFree_append hsf ?_
      intro t ht
      rw [List.mem_singleton.mp ht]
      simp
    · rw [seg_succ ts (Token.CharacterSet []) (by omega) hpIdx, htok,
        seg_succ s 'a' (by omega) hsIdx]
      exact hA3.append hone

/-- The invariant survives consuming a matching literal token. -/
theorem greedyInv_lit {s : List Char} {ts : List Token} {sIdx pIdx : Nat} {v : List Char}
    {bp : Option (Nat × Nat)}
    (hinv : greedyInv s ts sIdx pIdx bp) (hsIdx : sIdx < s.length)
    (hpIdx : pIdx < ts.length)
    (htok : ts.getD pIdx (Token.CharacterSet []) = Token.LiteralSequence v)
    (hlit : litHere (s.drop sIdx) v = true) :
    greedyInv s ts (sIdx + v.length) (pIdx + 1) bp := by
  have hvlen : v.length ≤ s.length - sIdx := by
    have := (litHere_iff.mp hlit).1
    rw [List.length_drop] at this
    exact this
  have hchunk : (s.drop sIdx).take v.length = v := by
    have h := (litHere_iff.mp hlit).2
    exact h
  have hone : Matches v [Token.LiteralSequence v] :=
    matches_single_lit_iff.mpr rfl
  cases bp with
  | none =>
    obtain ⟨hsI, hpI, hsf, hA⟩ := hinv
    refine ⟨by omega, by omega, ?_, ?_⟩
    · rw [take_succ_getD ts (Token.CharacterSet []) hpIdx, htok]
      refine starFree_append hsf ?_
      intro t ht
      rw [List.mem_singleton.mp ht]
      simp
    · rw [take_succ_getD ts (Token.CharacterSet []) hpIdx, htok]
      have htake : s.take (sIdx + v.length) = s.take sIdx ++ v := by
        rw [List.take_add, hchunk]
      rw [htake]
      exact hA.append hone
  | some q =>
    obtain ⟨ps, sm⟩ := q
    obtain ⟨hsI, hpI, hps, hsm, htokstar, hA2, hsf, hA3⟩ := hinv
    refine ⟨by omega, by omega, by omega, by omega, htokstar, hA2, ?_, ?_⟩
    · rw [seg_succ ts (Token.CharacterSet []) (by omega) hpIdx, htok]
      refine starFree_append hsf ?_
      intro t ht
      rw [List.mem_singleton.mp ht]
      simp
    · rw [seg_succ ts (Token.CharacterSet []) (by omega) hpIdx, htok,
        seg_add s v.length hsm (by omega), hchunk]
      exact hA3.append hone

/-- The invariant survives recording a new backtrack point at a star. -/
theorem greedyInv_star {s : List Char} {ts : List Token} {sIdx pIdx : Nat}
    {bp : Option (Nat × Nat)}
    (hinv : greedyInv s ts sIdx pIdx bp)
    (hpIdx : pIdx < ts.length)
    (htok : ts.getD pIdx (Token.CharacterSet []) = Token.AnySequence) :
    greedyInv s ts sIdx (pIdx + 1) (some (pIdx, sIdx)) := by
  have hsI : sIdx ≤ s.length := by
    cases bp with
    | none => exact hinv.1
    | some q => obtain ⟨ps, sm⟩ := q; exact hinv.1
  have hAtake : Matches (s.take sIdx) (ts.take pIdx) := by
    cases bp with
    | none => exact hinv.2.2.2
    | some q => obtain ⟨ps, sm⟩ := q; exact greedyInv_matches_take hinv
  refine ⟨hsI, by omega, by omega, le_rfl, htok, ?_, ?_, ?_⟩
  · rw [take_succ_getD ts (Token.CharacterSet []) hpIdx, htok, matches_snoc_star]
    exact ⟨(s.take sIdx).length, le_rfl, by rw [List.take_length]; exact hAtake⟩
  · have h1 : (ts.take (pIdx + 1)).drop (pIdx + 1) = [] :=
      List.drop_eq_nil_of_le (by rw [List.length_take]; omega)
    rw [h1]
    exact starFree_nil
  · have h1 : (ts.take (pIdx + 1)).drop (pIdx + 1) = [] :=
      List.drop_eq_nil_of_le (by rw [List.length_take]; omega)
    have h2 : (s.take sIdx).drop sIdx = [] :=
      List.drop_eq_nil_of_le (by rw [List.length_take]; omega)
    rw [h1, h2]
    exact Matches.nil

/-- Consuming a directly matching token does not change the semantic target. -/
theorem greedyPost_anyChar_iff {s : List Char} {ts : List Token} {sIdx pIdx : Nat}
    (hsIdx : sIdx < s.length) (hpIdx : pIdx < ts.length)
    (htok : ts.getD pIdx (Token.CharacterSet []) = Token.AnyChar) :
    greedyPost s ts sIdx pIdx none ↔ greedyPost s ts (sIdx + 1) (pIdx + 1) none := by
  show Matches (s.drop sIdx) (ts.drop pIdx) ↔ _
  rw [drop_cons_getD ts (Token.CharacterSet []) hpIdx, htok,
    drop_cons_getD s 'a' hsIdx]
  exact matches_cons_anyChar_iff

theorem greedyPost_lit_iff {s : List Char} {ts : List Token} {sIdx pIdx : Nat}
    {v : List Char} (_hsIdx : sIdx < s.length) (hpIdx : pIdx < ts.length)
    (htok : ts.getD pIdx (Token.CharacterSet []) = Token.LiteralSequence v)
    (hlit : litHere (s.drop sIdx) v = true) :
    greedyPost s ts sIdx pIdx none ↔ greedyPost s ts (sIdx + v.length) (pIdx + 1) none := by
  show Matches (s.drop sIdx) (ts.drop pIdx) ↔ Matches (s.drop (sIdx + v.length)) _
  rw [drop_cons_getD ts (Token.CharacterSet []) hpIdx, htok]
  have hdecomp : s.drop sIdx = v ++ s.drop (sIdx + v.length) := by
    have h := litHere_prefix hlit
    rwa [List.drop_drop] at h
  rw [hdecomp]
  exact matches_cons_lit_iff

/-- Recording a star as the new backtrack point preserves the target. -/
theorem greedyPost_star_iff {s : List Char} {ts : List Token} {sIdx pIdx : Nat}
    {bp : Option (Nat × Nat)}
    (hinv : greedyInv s ts sIdx pIdx bp) (hpIdx : pIdx < ts.length)
    (htok : ts.getD pIdx (Token.CharacterSet []) = Token.AnySequence) :
    greedyPost s ts sIdx pIdx bp ↔ greedyPost s ts sIdx (pIdx + 1) (some (pIdx, sIdx)) := by
  cases bp with
  | none =>
    obtain ⟨hsI, hpI, hsf, hA⟩ := hinv
    show Matches (s.drop sIdx) (ts.drop pIdx) ↔ ∃ k, sIdx ≤ k ∧ _
    rw [drop_cons_getD ts (Token.CharacterSet []) hpIdx, htok]
    constructor
    · intro h
      obtain ⟨w, z, hwz, hz⟩ := matches_star_inv h
      refine ⟨sIdx + w.length, by omega, ?_⟩
      have hzdrop : s.drop (sIdx + w.length) = z := by
        rw [← List.drop_drop w.length sIdx s, hwz, List.drop_left]
      rw [hzdrop]
      exact hz
    · rintro ⟨k, hk, hm⟩
      rw [← drop_split s (b := k) hk hsI]
      exact Matches.anySeq _ hm
  | some q =>
    obtain ⟨ps, sm⟩ := q
    obtain ⟨hsI, hpI, hps, hsm, htokstar, hA2, hsf, hA3⟩ := hinv
    show (∃ k, sm ≤ k ∧ _) ↔ ∃ k, sIdx ≤ k ∧ _
    constructor
    · rintro ⟨k, hk, hm⟩
      rw [← drop_split ts (b := pIdx) (by omega) (by omega)] at hm
      obtain ⟨y, z, hyz, hy, hz⟩ := matches_append_iff.mp hm
      have hylen : y.length = rigidLen ((ts.take pIdx).drop (ps + 1)) :=
        matches_starFree_length hy hsf
      have hxlen : ((s.take sIdx).drop sm).length =
          rigidLen ((ts.take pIdx).drop (ps + 1)) :=
        matches_starFree_length hA3 hsf
      rw [seg_length s hsI] at hxlen
      have hzeq : z = s.drop (k + y.length) := by
        have h1 := congrArg (List.drop y.length) hyz
        rw [List.drop_left, List.drop_drop] at h1
        exact h1.symm
      rw [hzeq, drop_cons_getD ts (Token.CharacterSet []) hpIdx, htok] at hz
      obtain ⟨w, z₁, hwz, hz₁⟩ := matches_star_inv hz
      refine ⟨k + y.length + w.length, ?_, ?_⟩
      · omega
      · have hzdrop : s.drop (k + y.length + w.length) = z₁ := by
          rw [← List.drop_drop w.length (k + y.length) s, hwz, List.drop_left]
        rw [hzdrop]
        exact hz₁
    · rintro ⟨k, hk, hm⟩
      refine ⟨sm, le_rfl, ?_⟩
      rw [← drop_split ts (b := pIdx) (by omega) (by omega)]
      rw [← drop_split s (b := sIdx) hsm (by omega)]
      refine hA3.append ?_
      rw [drop_cons_getD ts (Token.CharacterSet []) hpIdx, htok]
      rw [← drop_split s (b := k) hk (by omega)]
      exact Matches.anySeq _ hm

/-- The loop's exit step is exact: once the text is exhausted, the answer
is `true` iff the semantic target holds. -/
theorem greedy_exit_iff {s : List Char} {ts : List Token} {sIdx pIdx : Nat}
    {bp : Option (Nat × Nat)} (hne : NoEmptyLit ts)
    (hinv : greedyInv s ts sIdx pIdx bp) (hm : s.length ≤ sIdx) :
    ((ts.drop pIdx).dropWhile (fun t => decide (t = Token.AnySequence)) = [] ↔
      greedyPost s ts sIdx pIdx bp) := by
  have hallstar : (ts.drop pIdx).dropWhile (fun t => decide (t = Token.AnySequence)) = [] ↔
      ∀ t ∈ ts.drop pIdx, t = Token.AnySequence := by
    rw [List.dropWhile_eq_nil_iff]
    constructor
    · intro h t ht
      exact of_decide_eq_true (h t ht)
    · intro h t ht
      exact decide_eq_true (h t ht)
  have hsnil : s.drop sIdx = [] := List.drop_eq_nil_of_le hm
  have hnedrop : NoEmptyLit (ts.drop pIdx) :=
    fun v hv => hne v (List.mem_of_mem_drop hv)
  cases bp with
  | none =>
    obtain ⟨hsI, hpI, hsf, hA⟩ := hinv
    show _ ↔ Matches (s.drop sIdx) (ts.drop pIdx)
    rw [hsnil, hallstar]
    exact (matches_nil_iff hnedrop).symm
  | some q =>
    obtain ⟨ps, sm⟩ := q
    obtain ⟨hsI, hpI, hps, hsm, htokstar, hA2, hsf, hA3⟩ := hinv
    have hsIdxm : sIdx = s.length := by omega
    show _ ↔ ∃ k, sm ≤ k ∧ _
    rw [hallstar]
    constructor
    · intro h
      refine ⟨sm, le_rfl, ?_⟩
      rw [← drop_split ts (b := pIdx) (by omega) (by omega)]
      rw [← drop_split s (b := sIdx) hsm (by omega), hsnil]
      exact hA3.append (matches_nil_of_all_star h)
    · rintro ⟨k, hk, hM⟩
      rw [← drop_split ts (b := pIdx) (by omega) (by omega)] at hM
      obtain ⟨y, z, hyz, hy, hz⟩ := matches_append_iff.mp hM
      have hylen : y.length = rigidLen ((ts.take pIdx).drop (ps + 1)) :=
        matches_starFree_length hy hsf
      have hxlen : ((s.take sIdx).drop sm).length =
          rigidLen ((ts.take pIdx).drop (ps + 1)) :=
        matches_starFree_length hA3 hsf
      rw [seg_length s hsI] at hxlen
      have hlen := congrArg List.length hyz
      rw [List.length_drop, List.length_append] at hlen
      have hznil : z = [] := by
        have hz0 : z.length = 0 := by omega
        exact List.length_eq_zero.mp hz0
      rw [hznil] at hz
      exact matches_nil_all_star hz hnedrop rfl

theorem not_matches_lit_fail {s : List Char} {ts : List Token} {sIdx pIdx : Nat}
    {v : List Char} (hpi : pIdx < ts.length)
    (htok : ts.getD pIdx (Token.CharacterSet []) = Token.LiteralSequence v)
    (hnlit : ¬ litHere (s.drop sIdx) v = true) :
    ¬ Matches (s.drop sIdx) (ts.drop pIdx) := by
  intro h
  rw [drop_cons_getD ts (Token.CharacterSet []) hpi, htok] at h
  obtain ⟨x', heq, _⟩ := matches_lit_inv h
  exact hnlit (heq ▸ litHere_append_self v x')

theorem not_matches_cs_fail {s : List Char} {ts : List Token} {sIdx pIdx : Nat}
    {cs : List Bool} (hpi : pIdx < ts.length)
    (htok : ts.getD pIdx (Token.CharacterSet []) = Token.CharacterSet cs) :
    ¬ Matches (s.drop sIdx) (ts.drop pIdx) := by
  intro h
  rw [drop_cons_getD ts (Token.CharacterSet []) hpi, htok] at h
  exact matches_cs_not h

theorem not_matches_pattern_exhausted {s : List Char} {ts : List Token} {sIdx pIdx : Nat}
    (hpi : ts.length ≤ pIdx) (hs : sIdx < s.length) :
    ¬ Matches (s.drop sIdx) (ts.drop pIdx) := by
  intro h
  rw [List.drop_eq_nil_of_le hpi] at h
  have := congrArg List.length (matches_nil_tokens h)
  rw [List.length_drop, List.length_nil] at this
  omega

/-- Fuel arithmetic: same-or-larger low mark, strictly advanced cursor. -/
theorem greedyFuel_lt_forward {m n low lw p q : Nat} (hll : low ≤ lw)
    (hpq : p < q) (hpn : p < n) :
    (m - lw) * (n + 1) + (n - q) < (m - low) * (n + 1) + (n - p) := by
  have hmul : (m - lw) * (n + 1) ≤ (m - low) * (n + 1) :=
    Nat.mul_le_mul_right (n + 1) (by omega)
  omega

/-- Fuel arithmetic: strictly larger low mark. -/
theorem greedyFuel_lt_backtrack {m n low lw p q : Nat} (hll : low < lw)
    (hlm : low < m) :
    (m - lw) * (n + 1) + (n - q) < (m - low) * (n + 1) + (n - p) := by
  have hmul : (m - lw) * (n + 1) + (n + 1) ≤ (m - low) * (n + 1) := by
    have h1 : (m - lw) + 1 ≤ m - low := by omega
    have h2 : ((m - lw) + 1) * (n + 1) ≤ (m - low) * (n + 1) :=
      Nat.mul_le_mul_right (n + 1) h1
    rw [Nat.add_mul, Nat.one_mul] at h2
    omega
  omega

theorem greedyLoop_succ (s : List Char) (ts : List Token) (fuel sIdx pIdx : Nat)
    (bp : Option (Nat × Nat)) :
    greedyLoop s ts (fuel + 1) sIdx pIdx bp =
      if sIdx < s.length then
        if pIdx < ts.length then
          match ts.getD pIdx (Token.CharacterSet []) with
          | Token.AnyChar => greedyLoop s ts fuel (sIdx + 1) (pIdx + 1) bp
          | Token.LiteralSequence v =>
            if litHere (s.drop sIdx) v then
              greedyLoop s ts fuel (sIdx + v.length) (pIdx + 1) bp
            else
              match bp with
              | some (ps, sm) => greedyLoop s ts fuel (sm + 1) (ps + 1) (some (ps, sm + 1))
              | none => false
          | Token.AnySequence => greedyLoop s ts fuel sIdx (pIdx + 1) (some (pIdx, sIdx))
          | Token.CharacterSet _ =>
            match bp with
            | some (ps, sm) => greedyLoop s ts fuel (sm + 1) (ps + 1) (some (ps, sm + 1))
            | none => false
        else
          match bp with
          | some (ps, sm) => greedyLoop s ts fuel (sm + 1) (ps + 1) (some (ps, sm + 1))
          | none => false
      else
        decide ((ts.drop pIdx).dropWhile (fun t => decide (t = Token.AnySequence)) = []) :=
  rfl

/-- The greedy loop with sufficient fuel decides `greedyPost` from any
state satisfying the invariant. -/
theorem greedyLoop_iff {s : List Char} {ts : List Token} (hne : NoEmptyLit ts) :
    ∀ (fuel sIdx pIdx : Nat) (bp : Option (Nat × Nat)),
      greedyFuel s ts sIdx pIdx bp < fuel → greedyInv s ts sIdx pIdx bp →
      (greedyLoop s ts fuel sIdx pIdx bp = true ↔ greedyPost s ts sIdx pIdx bp) := by
  intro fuel
  induction fuel with
  | zero => intro sIdx pIdx bp hfuel; omega
  | succ f ih =>
    intro sIdx pIdx bp hfuel hinv
    rw [greedyLoop_succ]
    by_cases hs : sIdx < s.length
    · rw [if_pos hs]
      by_cases hpi : pIdx < ts.length
      · rw [if_pos hpi]
        cases htok : ts.getD pIdx (Token.CharacterSet []) with
        | AnyChar =>
          dsimp only
          have hinv' := greedyInv_anyChar hinv hs hpi htok
          have hdec : greedyFuel s ts (sIdx + 1) (pIdx + 1) bp <
              greedyFuel s ts sIdx pIdx bp := by
            unfold greedyFuel
            cases bp with
            | none => exact greedyFuel_lt_forward (by dsimp only; omega) (by omega) hpi
            | some q =>
              exact greedyFuel_lt_forward (by dsimp only; omega) (by omega) hpi
          rw [ih (sIdx + 1) (pIdx + 1) bp (by omega) hinv']
          cases bp with
          | none => exact (greedyPost_anyChar_iff hs hpi htok).symm
          | some q => exact Iff.rfl
        | LiteralSequence v =>
          dsimp only
          by_cases hlit : litHere (s.drop sIdx) v
          · rw [if_pos hlit]
            have hinv' := greedyInv_lit hinv hs hpi htok hlit
            have hdec : greedyFuel s ts (sIdx + v.length) (pIdx + 1) bp <
                greedyFuel s ts sIdx pIdx bp := by
              unfold greedyFuel
              cases bp with
              | none => exact greedyFuel_lt_forward (by dsimp only; omega) (by omega) hpi
              | some q =>
                exact greedyFuel_lt_forward (by dsimp only; omega) (by omega) hpi
            rw [ih (sIdx + v.length) (pIdx + 1) bp (by omega) hinv']
            cases bp with
            | none => exact (greedyPost_lit_iff hs hpi htok hlit).symm
            | some q => exact Iff.rfl
          · rw [if_neg hlit]
            cases bp with
            | none =>
              simp only [Bool.false_eq_true, false_iff]
              exact not_matches_lit_fail hpi htok hlit
            | some q =>
              obtain ⟨ps, sm⟩ := q
              dsimp only
              have hsm : sm ≤ sIdx := hinv.2.2.2.1
              have hinv' := greedyInv_backtrack hinv hs
              have hdec : greedyFuel s ts (sm + 1) (ps + 1) (some (ps, sm + 1)) <
                  greedyFuel s ts sIdx pIdx (some (ps, sm)) := by
                unfold greedyFuel
                dsimp only
                exact greedyFuel_lt_backtrack (by omega) (by omega)
              rw [ih (sm + 1) (ps + 1) (some (ps, sm + 1)) (by omega) hinv']
              exact (greedyPost_backtrack_iff hinv (not_matches_lit_fail hpi htok hlit)).symm
        | AnySequence =>
          dsimp only
          have hinv' := greedyInv_star hinv hpi htok
          have hdec : greedyFuel s ts sIdx (pIdx + 1) (some (pIdx, sIdx)) <
              greedyFuel s ts sIdx pIdx bp := by
            unfold greedyFuel
            cases bp with
            | none => exact greedyFuel_lt_forward (by dsimp only; omega) (by omega) hpi
            | some q => exact greedyFuel_lt_forward (by dsimp only; omega) (by omega) hpi
          rw [ih sIdx (pIdx + 1) (some (pIdx, sIdx)) (by omega) hinv']
          exact (greedyPost_star_iff hinv hpi htok).symm
        | CharacterSet cs =>
          dsimp only
          cases bp with
          | none =>
            simp only [Bool.false_eq_true, false_iff]
            exact not_matches_cs_fail hpi htok
          | some q =>
            obtain ⟨ps, sm⟩ := q
            dsimp only
            have hsm : sm ≤ sIdx := hinv.2.2.2.1
            have hinv' := greedyInv_backtrack hinv hs
            have hdec : greedyFuel s ts (sm + 1) (ps + 1) (some (ps, sm + 1)) <
                greedyFuel s ts sIdx pIdx (some (ps, sm)) := by
              unfold greedyFuel
              dsimp only
              exact greedyFuel_lt_backtrack (by omega) (by omega)
            rw [ih (sm + 1) (ps + 1) (some (ps, sm + 1)) (by omega) hinv']
            exact (greedyPost_backtrack_iff hinv (not_matches_cs_fail hpi htok)).symm
      · rw [if_neg hpi]
        cases bp with
        | none =>
          simp only [Bool.false_eq_true, false_iff]
          exact not_matches_pattern_exhausted (by omega) hs
        | some q =>
          obtain ⟨ps, sm⟩ := q
          dsimp only
          have hsm : sm ≤ sIdx := hinv.2.2.2.1
          have hinv' := greedyInv_backtrack hinv hs
          have hdec : greedyFuel s ts (sm + 1) (ps + 1) (some (ps, sm + 1)) <
              greedyFuel s ts sIdx pIdx (some (ps, sm)) := by
            unfold greedyFuel
            dsimp only
            exact greedyFuel_lt_backtrack (by omega) (by omega)
          rw [ih (sm + 1) (ps + 1) (some (ps, sm + 1)) (by omega) hinv']
          exact (greedyPost_backtrack_iff hinv
            (not_matches_pattern_exhausted (by omega) hs)).symm
    · rw [if_neg hs]
      rw [decide_eq_true_iff]
      exact greedy_exit_iff hne hinv (by omega)

/-- The greedy solver decides the canonical semantics (for token lists
without empty literals). -/
theorem greedyMatch_iff (s : List Char) (ts : List Token) (hne : NoEmptyLit ts) :
    greedyMatch s ts = true ↔ Matches s ts := by
  unfold greedyMatch
  rw [greedyLoop_iff hne (greedyFuel s ts 0 0 none + 1) 0 0 none (by omega)
    ⟨Nat.zero_le _, Nat.zero_le _, starFree_nil, by simpa using Matches.nil⟩]
  show Matches (s.drop 0) (ts.drop 0) ↔ _
  rw [List.drop_zero, List.drop_zero]

theorem greedyMatch_eq_recMatch (s : List Char) (ts : List Token) (hne : NoEmptyLit ts) :
    greedyMatch s ts = recMatch s ts :=
  Bool.eq_iff_iff.mpr ((greedyMatch_iff s ts hne).trans recMatch_iff.symm)

/-! ### The single-row solver on degenerate patterns -/

theorem nfaStep_nil_singleton (b : Bool) (c : Char) : nfaStep [] [b] c = [false] := rfl

theorem foldl_nfaStep_nil_false (s : List Char) :
    s.foldl (nfaStep []) [false] = [false] := by
  induction s with
  | nil => rfl
  | cons c s' ih => simpa [List.foldl_cons, nfaStep_nil_singleton] using ih

/-- The single-row solver against the empty pattern accepts only the empty
text. -/
theorem nfaMatch_nil_pattern (s : List Char) : nfaMatch s [] = s.isEmpty := by
  unfold nfaMatch nfaRow0
  cases s with
  | nil => rfl
  | cons c s' =>
    rw [List.foldl_cons,
      show nfaStep [] (true :: nfaInitAux true []) c = [false] from rfl,
      foldl_nfaStep_nil_false]
    rfl

theorem nfaInitAux_getLast (p : List Char) :
    ∀ b : Bool, ((b :: nfaInitAux b p).getLast?).getD false =
      (b && p.all fun c => decide (c = '*')) := by
  induction p with
  | nil =>
    intro b
    simp [nfaInitAux]
  | cons c rest ih =>
    intro b
    rw [nfaInitAux]
    have h1 : ((b :: (if c = '*' then b else false) ::
        nfaInitAux (if c = '*' then b else false) rest).getLast?).getD false =
        (((if c = '*' then b else false) ::
          nfaInitAux (if c = '*' then b else false) rest).getLast?).getD false := by
      rw [List.getLast?_cons_cons]
    rw [h1, ih]
    rw [List.all_cons]
    by_cases hc : c = '*' <;> simp [hc]

/-- The single-row solver on empty text accepts exactly the all-`'*'`
patterns. -/
theorem nfaMatch_nil_text (p : List Char) :
    nfaMatch [] p = p.all fun c => decide (c = '*') := by
  unfold nfaMatch nfaRow0
  rw [List.foldl_nil]
  simpa using nfaInitAux_getLast p true

/-- Equation lemmas for the parser loop. -/
theorem parseChars_nil (pos : Nat) (st : PState) : parseChars [] pos st = st := rfl

theorem parseChars_q (rest : List Char) (pos : Nat) (st : PState) :
    parseChars ('?' :: rest) pos st = parseChars rest (pos + 1) (anyCharStep st) := by
  rw [parseChars.eq_def]
  norm_num

theorem parseChars_star (rest : List Char) (pos : Nat) (st : PState) :
    parseChars ('*' :: rest) pos st = parseChars rest (pos + 1) (starStep st pos) := by
  rw [parseChars.eq_def]
  dsimp only
  rw [if_neg (show ¬ (('*' : Char) = '?') by decide), if_pos rfl]

theorem parseChars_bs_cons (c2 : Char) (rest2 : List Char) (pos : Nat) (st : PState) :
    parseChars ('\\' :: c2 :: rest2) pos st =
      parseChars rest2 (pos + 2) (escapeStep st pos c2) := by
  rw [parseChars.eq_def]
  dsimp only
  rw [if_neg (show ¬ (('\\' : Char) = '?') by decide),
    if_neg (show ¬ (('\\' : Char) = '*') by decide), if_pos rfl]

theorem parseChars_bs_last (pos : Nat) (st : PState) :
    parseChars ['\\'] pos st =
      { st with events := st.events ++ [⟨IssueCode.TrailingBackslash, pos, none⟩] } := by
  rw [parseChars.eq_def]
  dsimp only
  rw [if_neg (show ¬ (('\\' : Char) = '?') by decide),
    if_neg (show ¬ (('\\' : Char) = '*') by decide), if_pos rfl]

theorem parseChars_other {c : Char} (rest : List Char) (pos : Nat) (st : PState)
    (hq : c ≠ '?') (hst : c ≠ '*') (hbs : c ≠ '\\') :
    parseChars (c :: rest) pos st =
      parseChars rest (pos + 1) { st with literalBuilder := st.literalBuilder ++ [c] } := by
  rw [parseChars.eq_def]
  dsimp only
  rw [if_neg hq, if_neg hst, if_neg hbs]

/-- Processing a cleanly consumed prefix is compositional. -/
theorem parseChars_append (w : List Char) :
    ∀ (u : List Char) (pos : Nat) (st : PState), cleanlyConsumed u = true →
      parseChars (u ++ w) pos st = parseChars w (pos + u.length) (parseChars u pos st) := by
  intro u
  induction u using cleanlyConsumed.induct with
  | case1 =>
    intro pos st _
    rfl
  | case2 =>
    intro pos st hclean
    exact absurd hclean (by decide)
  | case3 c2 rest2 ih =>
    intro pos st hclean
    have hclean2 : cleanlyConsumed rest2 = true := by
      rw [cleanlyConsumed.eq_def] at hclean
      simpa using hclean
    rw [List.cons_append, List.cons_append, parseChars_bs_cons, parseChars_bs_cons,
      ih _ _ hclean2]
    congr 1
    simp only [List.length_cons]
    omega
  | case4 c2 rest2 hc ih =>
    intro pos st hclean
    rw [cleanlyConsumed.eq_def] at hclean
    dsimp only at hclean
    rw [if_neg hc] at hclean
    rw [List.cons_append]
    by_cases hq : c2 = '?'
    · subst hq
      rw [parseChars_q, parseChars_q, ih _ _ hclean]
      congr 1
      simp only [List.length_cons]
      omega
    · by_cases hst : c2 = '*'
      · subst hst
        rw [parseChars_star, parseChars_star, ih _ _ hclean]
        congr 1
        simp only [List.length_cons]
        omega
      · rw [parseChars_other _ _ _ hq hst hc, parseChars_other _ _ _ hq hst hc,
          ih _ _ hclean]
        congr 1
        simp only [List.length_cons]
        omega

theorem tokensOK_nil : TokensOK [] :=
  ⟨fun t ht => absurd ht (List.not_mem_nil t), List.chain'_nil⟩

theorem tokensOK_append_single {ts : List Token} {t : Token} (h : TokensOK ts)
    (ht : TokenOK t)
    (hlast : t ≠ Token.AnySequence ∨ ts.getLast? ≠ some Token.AnySequence) :
    TokensOK (ts ++ [t]) := by
  obtain ⟨hmem, hchain⟩ := h
  constructor
  · intro u hu
    rcases List.mem_append.mp hu with h | h
    · exact hmem u h
    · rw [List.mem_singleton.mp h]
      exact ht
  · rw [List.chain'_append]
    refine ⟨hchain, List.chain'_singleton t, ?_⟩
    intro x hx y hy
    rw [List.head?_cons, Option.mem_def, Option.some.injEq] at hy
    subst hy
    rintro ⟨hx1, hy1⟩
    rcases hlast with h | h
    · exact h hy1
    · rw [Option.mem_def] at hx
      exact h (hx1 ▸ hx)

theorem tokenOK_anyChar : TokenOK Token.AnyChar :=
  ⟨fun _ h => Token.noConfusion h, fun _ h => Token.noConfusion h⟩

theorem tokenOK_star : TokenOK Token.AnySequence :=
  ⟨fun _ h => Token.noConfusion h, fun _ h => Token.noConfusion h⟩

theorem tokenOK_lit {v : List Char} (hv : v ≠ []) : TokenOK (Token.LiteralSequence v) :=
  ⟨fun cs h => Token.noConfusion h,
    fun val h => by injection h with h1; rw [← h1]; exact hv⟩

theorem tokensOK_flush {b : List Char} {ts : List Token} (h : TokensOK ts) :
    TokensOK (flushTokens b ts) := by
  unfold flushTokens
  by_cases hb : b = []
  · rw [if_pos hb]
    exact h
  · rw [if_neg hb]
    exact tokensOK_append_single h (tokenOK_lit hb) (Or.inl (by simp))

/-- Every parser step preserves the invariant on the emitted tokens. -/
theorem parseChars_tokensOK (w : List Char) :
    ∀ (pos : Nat) (st : PState), TokensOK st.tokens →
      TokensOK (parseChars w pos st).tokens := by
  induction w using cleanlyConsumed.induct with
  | case1 =>
    intro pos st h
    exact h
  | case2 =>
    intro pos st h
    rw [parseChars_bs_last]
    exact h
  | case3 c2 rest2 ih =>
    intro pos st h
    rw [parseChars_bs_cons]
    exact ih _ _ h
  | case4 c2 rest2 hc ih =>
    intro pos st h
    by_cases hq : c2 = '?'
    · subst hq
      rw [parseChars_q]
      refine ih _ _ ?_
      unfold anyCharStep
      exact tokensOK_append_single (tokensOK_flush h) tokenOK_anyChar (Or.inl (by simp))
    · by_cases hst : c2 = '*'
      · subst hst
        rw [parseChars_star]
        refine ih _ _ ?_
        unfold starStep
        by_cases hlast :
            (flushTokens st.literalBuilder st.tokens).getLast? = some Token.AnySequence
        · rw [if_pos hlast]
          exact tokensOK_flush h
        · rw [if_neg hlast]
          exact tokensOK_append_single (tokensOK_flush h) tokenOK_star (Or.inr hlast)
      · rw [parseChars_other _ _ _ hq hst hc]
        exact ih _ _ h

/-- C6 core: the compiled token list always satisfies the invariant. -/
theorem parse_tokensOK (p : List Char) : TokensOK (Parser.parse p).tokens := by
  unfold Parser.parse
  exact tokensOK_flush (parseChars_tokensOK p 1 ⟨[], [], []⟩ tokensOK_nil)

/-- Compiled token lists have no empty literal. -/
theorem parse_noEmptyLit (p : List Char) : NoEmptyLit (Parser.parse p).tokens := by
  intro v hv
  exact ((parse_tokensOK p).1 _ hv).2 v rfl

/-- Compiled token lists have no `CharacterSet`. -/
theorem parse_noCharSet (p : List Char) : NoCharSet (Parser.parse p).tokens := by
  intro cs hcs
  exact ((parse_tokensOK p).1 _ hcs).1 cs rfl

/-! ### Event positions and the merging law (C3) -/

/-- The parser only appends events, at positions within the consumed
range, and only appends tokens. -/
theorem parseChars_extend (w : List Char) :
    ∀ (pos : Nat) (st : PState),
      (∃ ext, (parseChars w pos st).tokens = st.tokens ++ ext) ∧
      (∃ evs, (parseChars w pos st).events = st.events ++ evs ∧
        ∀ e ∈ evs, pos ≤ e.position ∧ e.position < pos + w.length) := by
  induction w using cleanlyConsumed.induct with
  | case1 =>
    intro pos st
    exact ⟨⟨[], by simp [parseChars_nil]⟩, ⟨[], by simp [parseChars_nil]⟩⟩
  | case2 =>
    intro pos st
    rw [parseChars_bs_last]
    refine ⟨⟨[], by simp⟩, ⟨[⟨IssueCode.TrailingBackslash, pos, none⟩], by simp, ?_⟩⟩
    intro e he
    rw [List.mem_singleton.mp he]
    simp
  | case3 c2 rest2 ih =>
    intro pos st
    rw [parseChars_bs_cons]
    by_cases hdef : isDefinedEscape c2
    · have hesc : escapeStep st pos c2 =
          { literalBuilder := st.literalBuilder ++ [c2], tokens := st.tokens,
            events := st.events } := by
        unfold escapeStep
        rw [if_pos hdef]
      rw [hesc]
      obtain ⟨⟨ext, hext⟩, ⟨evs, hevs, hpos⟩⟩ := ih (pos + 2)
        { literalBuilder := st.literalBuilder ++ [c2], tokens := st.tokens,
          events := st.events }
      refine ⟨⟨ext, hext⟩, ⟨evs, hevs, ?_⟩⟩
      intro e he
      have := hpos e he
      simp only [List.length_cons]
      omega
    · have hesc : escapeStep st pos c2 =
          { literalBuilder := st.literalBuilder ++ [c2], tokens := st.tokens,
            events := st.events ++
              [⟨IssueCode.UndefinedEscapeSequence, pos, some (String.mk [c2])⟩] } := by
        unfold escapeStep
        rw [if_neg hdef]
      rw [hesc]
      obtain ⟨⟨ext, hext⟩, ⟨evs, hevs, hpos⟩⟩ := ih (pos + 2)
        { literalBuilder := st.literalBuilder ++ [c2], tokens := st.tokens,
          events := st.events ++
            [⟨IssueCode.UndefinedEscapeSequence, pos, some (String.mk [c2])⟩] }
      refine ⟨⟨ext, hext⟩,
        ⟨⟨IssueCode.UndefinedEscapeSequence, pos, some (String.mk [c2])⟩ :: evs, ?_, ?_⟩⟩
      · rw [hevs]
        dsimp only
        rw [List.append_assoc, List.singleton_append]
      · intro e he
        rcases List.mem_cons.mp he with rfl | he
        · simp only [List.length_cons]
          omega
        · have := hpos e he
          simp only [List.length_cons]
          omega
  | case4 c2 rest2 hc ih =>
    intro pos st
    by_cases hq : c2 = '?'
    · subst hq
      rw [parseChars_q]
      obtain ⟨⟨ext, hext⟩, ⟨evs, hevs, hpos⟩⟩ := ih (pos + 1) (anyCharStep st)
      constructor
      · refine ⟨(flushTokens st.literalBuilder st.tokens).drop st.tokens.length ++
          [Token.AnyChar] ++ ext, ?_⟩
        rw [hext]
        unfold anyCharStep flushTokens
        by_cases hb : st.literalBuilder = []
        · simp [hb]
        · simp [hb]
      · refine ⟨evs, hevs, ?_⟩
        intro e he
        have := hpos e he
        simp only [List.length_cons]
        omega
    · by_cases hst : c2 = '*'
      · subst hst
        rw [parseChars_star]
        by_cases hlast : (flushTokens st.literalBuilder st.tokens).getLast? =
            some Token.AnySequence
        · have hstar : starStep st pos =
              { literalBuilder := [], tokens := flushTokens st.literalBuilder st.tokens,
                events := st.events ++
                  [⟨IssueCode.ConsecutiveAsterisksMerged, pos, none⟩] } := by
            unfold starStep
            rw [if_pos hlast]
          rw [hstar]
          obtain ⟨⟨ext, hext⟩, ⟨evs, hevs, hpos⟩⟩ := ih (pos + 1)
            { literalBuilder := [], tokens := flushTokens st.literalBuilder st.tokens,
              events := st.events ++ [⟨IssueCode.ConsecutiveAsterisksMerged, pos, none⟩] }
          constructor
          · refine ⟨(flushTokens st.literalBuilder st.tokens).drop st.tokens.length ++
              ext, ?_⟩
            rw [hext]
            dsimp only
            unfold flushTokens
            by_cases hb : st.literalBuilder = []
            · simp [hb]
            · simp [hb]
          · refine ⟨⟨IssueCode.ConsecutiveAsterisksMerged, pos, none⟩ :: evs, ?_, ?_⟩
            · rw [hevs]
              dsimp only
              rw [List.append_assoc, List.singleton_append]
            · intro e he
              rcases List.mem_cons.mp he with rfl | he
              · simp only [List.length_cons]
                omega
              · have := hpos e he
                simp only [List.length_cons]
                omega
        · have hstar : starStep st pos =
              { literalBuilder := [],
                tokens := flushTokens st.literalBuilder st.tokens ++ [Token.AnySequence],
                events := st.events } := by
            unfold starStep
            rw [if_neg hlast]
          rw [hstar]
          obtain ⟨⟨ext, hext⟩, ⟨evs, hevs, hpos⟩⟩ := ih (pos + 1)
            { literalBuilder := [],
              tokens := flushTokens st.literalBuilder st.tokens ++ [Token.AnySequence],
              events := st.events }
          constructor
          · refine ⟨(flushTokens st.literalBuilder st.tokens).drop st.tokens.length ++
              [Token.AnySequence] ++ ext, ?_⟩
            rw [hext]
            dsimp only
            unfold flushTokens
            by_cases hb : st.literalBuilder = []
            · simp [hb]
            · simp [hb]
          · refine ⟨evs, hevs, ?_⟩
            intro e he
            have := hpos e he
            simp only [List.length_cons]
            omega
      · rw [parseChars_other _ _ _ hq hst hc]
        obtain ⟨⟨ext, hext⟩, ⟨evs, hevs, hpos⟩⟩ :=
          ih (pos + 1) { st with literalBuilder := st.literalBuilder ++ [c2] }
        refine ⟨⟨ext, by rw [hext]⟩, ⟨evs, by rw [hevs], ?_⟩⟩
        intro e he
        have := hpos e he
        simp only [List.length_cons]
        omega

theorem flushTokens_nil (ts : List Token) : flushTokens [] ts = ts := by
  unfold flushTokens
  rw [if_pos rfl]

theorem flushTokens_ne {b : List Char} (ts : List Token) (hb : b ≠ []) :
    flushTokens b ts = ts ++ [Token.LiteralSequence b] := by
  unfold flushTokens
  rw [if_neg hb]

/-- After processing a non-empty cleanly consumed prefix, the last token
(after flushing the pending run) is `AnySequence` exactly when the prefix
ends in an unescaped `'*'`. -/
theorem flushLast_star_iff (u : List Char) :
    ∀ (pos : Nat) (st : PState), u ≠ [] → cleanlyConsumed u = true →
      ((flushTokens (parseChars u pos st).literalBuilder
          (parseChars u pos st).tokens).getLast? = some Token.AnySequence ↔
        endsUnescStar u = true) := by
  induction u using cleanlyConsumed.induct with
  | case1 =>
    intro pos st hne _
    exact absurd rfl hne
  | case2 =>
    intro pos st _ hclean
    exact absurd hclean (by decide)
  | case3 c2 rest2 ih =>
    intro pos st _ hclean
    have hclean2 : cleanlyConsumed rest2 = true := by
      rw [cleanlyConsumed.eq_def] at hclean
      simpa using hclean
    rw [parseChars_bs_cons]
    cases rest2 with
    | nil =>
      rw [parseChars_nil]
      have hb : (escapeStep st pos c2).literalBuilder ≠ [] := by
        unfold escapeStep
        simp
      constructor
      · intro h
        unfold flushTokens at h
        rw [if_neg hb] at h
        rw [List.getLast?_concat] at h
        exact absurd (Option.some.inj h) (Token.noConfusion)
      · intro h
        rw [endsUnescStar.eq_def] at h
        simp only [if_pos rfl, if_true] at h
        exact absurd h (by decide)
    | cons c3 rest3 =>
      rw [ih pos.succ.succ (escapeStep st pos c2) (by simp) hclean2]
      show endsUnescStar (c3 :: rest3) = true ↔ _
      rw [show endsUnescStar ('\\' :: c2 :: c3 :: rest3) = endsUnescStar (c3 :: rest3)
        from by rw [endsUnescStar.eq_def]; simp]
  | case4 c2 rest2 hc ih =>
    intro pos st _ hclean
    have hclean2 : cleanlyConsumed rest2 = true := by
      rw [cleanlyConsumed.eq_def] at hclean
      dsimp only at hclean
      rwa [if_neg hc] at hclean
    cases rest2 with
    | nil =>
      by_cases hq : c2 = '?'
      · subst hq
        rw [parseChars_q, parseChars_nil]
        constructor
        · intro h
          unfold anyCharStep at h
          dsimp only at h
          rw [flushTokens_nil, List.getLast?_concat] at h
          exact absurd (Option.some.inj h) (Token.noConfusion)
        · intro h
          exact absurd h (by decide)
      · by_cases hst : c2 = '*'
        · subst hst
          rw [parseChars_star, parseChars_nil]
          constructor
          · intro _
            decide
          · intro _
            unfold starStep
            by_cases hlast : (flushTokens st.literalBuilder st.tokens).getLast? =
                some Token.AnySequence
            · rw [if_pos hlast]
              dsimp only
              rw [flushTokens_nil]
              exact hlast
            · rw [if_neg hlast]
              dsimp only
              rw [flushTokens_nil]
              exact List.getLast?_concat _
        · rw [parseChars_other _ _ _ hq hst hc, parseChars_nil]
          constructor
          · intro h
            unfold flushTokens at h
            rw [if_neg (by simp)] at h
            rw [List.getLast?_concat] at h
            exact absurd (Option.some.inj h) (Token.noConfusion)
          · intro h
            rw [endsUnescStar.eq_def] at h
            dsimp only at h
            rw [if_neg hc] at h
            exact absurd (of_decide_eq_true h) hst
    | cons c3 rest3 =>
      have hrw : endsUnescStar (c2 :: c3 :: rest3) = endsUnescStar (c3 :: rest3) := by
        rw [endsUnescStar.eq_def]
        dsimp only
        rw [if_neg hc]
      by_cases hq : c2 = '?'
      · subst hq
        rw [parseChars_q, ih _ _ (by simp) hclean2, hrw]
      · by_cases hst : c2 = '*'
        · subst hst
          rw [parseChars_star, ih _ _ (by simp) hclean2, hrw]
        · rw [parseChars_other _ _ _ hq hst hc, ih _ _ (by simp) hclean2, hrw]

/-- Processing `j` asterisks from a state whose last token is already
`AnySequence` (with no pending literal run) merges all of them, emitting one
`ConsecutiveAsterisksMerged` event per asterisk at consecutive positions. -/
theorem mergeRun (j : Nat) :
    ∀ (pos : Nat) (st : PState), st.literalBuilder = [] →
      st.tokens.getLast? = some Token.AnySequence →
      parseChars (List.replicate j '*') pos st =
        { literalBuilder := [], tokens := st.tokens,
          events := st.events ++ (List.range j).map
            (fun i => ⟨IssueCode.ConsecutiveAsterisksMerged, pos + i, none⟩) } := by
  induction j with
  | zero =>
    intro pos st hb hlast
    cases st with
    | mk b t e =>
      dsimp only at hb
      subst hb
      simp [parseChars_nil]
  | succ j ih =>
    intro pos st hb hlast
    rw [List.replicate_succ, parseChars_star]
    have hstar : starStep st pos =
        { literalBuilder := [], tokens := st.tokens,
          events := st.events ++ [⟨IssueCode.ConsecutiveAsterisksMerged, pos, none⟩] } := by
      unfold starStep
      rw [hb, flushTokens_nil, if_pos hlast]
    rw [hstar, ih (pos + 1)
      { literalBuilder := [], tokens := st.tokens,
        events := st.events ++ [⟨IssueCode.ConsecutiveAsterisksMerged, pos, none⟩] }
      rfl hlast]
    dsimp only
    rw [List.append_assoc]
    congr 1
    rw [List.range_succ_eq_map, List.map_cons, List.map_map, List.singleton_append]
    congr 1
    simp
    intro a _
    omega

/-- Processing a run of `k ≥ 1` asterisks from a state whose last flushed
token is not `AnySequence`: exactly one fresh `AnySequence` token is
appended and the remaining `k - 1` asterisks are merged, with events at the
positions of the 2nd through kth asterisk. -/
theorem starRun (k : Nat) (hk : 1 ≤ k) (pos : Nat) (st : PState)
    (hlast : (flushTokens st.literalBuilder st.tokens).getLast? ≠
      some Token.AnySequence) :
    parseChars (List.replicate k '*') pos st =
      { literalBuilder := [],
        tokens := flushTokens st.literalBuilder st.tokens ++ [Token.AnySequence],
        events := st.events ++ (List.range (k - 1)).map
          (fun i => ⟨IssueCode.ConsecutiveAsterisksMerged, pos + 1 + i, none⟩) } := by
  obtain ⟨j, rfl⟩ : ∃ j, k = j + 1 := ⟨k - 1, by omega⟩
  rw [List.replicate_succ, parseChars_star]
  have hstar : starStep st pos =
      { literalBuilder := [],
        tokens := flushTokens st.literalBuilder st.tokens ++ [Token.AnySequence],
        events := st.events } := by
    unfold starStep
    rw [if_neg hlast]
  rw [hstar, mergeRun j (pos + 1)
    { literalBuilder := [],
      tokens := flushTokens st.literalBuilder st.tokens ++ [Token.AnySequence],
      events := st.events }
    rfl (List.getLast?_concat _)]
  simp

/-- If the state's token list already has the shape `base ++ T :: mid`, then
after processing any further input the token appended right after `base` is
still `T`. -/
theorem flushed_drop_head (rest : List Char) (pos : Nat) (st1 : PState)
    (base mid : List Token) (T : Token) (h : st1.tokens = base ++ T :: mid) :
    ((flushTokens (parseChars rest pos st1).literalBuilder
        (parseChars rest pos st1).tokens).drop base.length).head? = some T := by
  obtain ⟨ext, hext⟩ := (parseChars_extend rest pos st1).1
  unfold flushTokens
  by_cases hb : (parseChars rest pos st1).literalBuilder = []
  · rw [if_pos hb, hext, h]
    simp only [List.append_assoc, List.cons_append]
    rw [List.drop_left]
    rfl
  · rw [if_neg hb, hext, h]
    simp only [List.append_assoc, List.cons_append]
    rw [List.drop_left]
    rfl

/-- The first token the parser appends, starting from state `st`, is never
`AnySequence`, provided a literal run is pending or the input does not start
with `'*'`. -/
theorem appended_head (w : List Char) :
    ∀ (pos : Nat) (st : PState),
      st.literalBuilder ≠ [] ∨ w.head? ≠ some '*' →
      ((flushTokens (parseChars w pos st).literalBuilder
          (parseChars w pos st).tokens).drop st.tokens.length).head? ≠
        some Token.AnySequence := by
  induction w using cleanlyConsumed.induct with
  | case1 =>
    intro pos st _
    rw [parseChars_nil]
    by_cases hb : st.literalBuilder = []
    · rw [hb, flushTokens_nil]
      simp
    · rw [flushTokens_ne _ hb, List.drop_left]
      simp
  | case2 =>
    intro pos st _
    rw [parseChars_bs_last]
    by_cases hb : st.literalBuilder = []
    · show ((flushTokens st.literalBuilder st.tokens).drop st.tokens.length).head? ≠ _
      rw [hb, flushTokens_nil]
      simp
    · show ((flushTokens st.literalBuilder st.tokens).drop st.tokens.length).head? ≠ _
      rw [flushTokens_ne _ hb, List.drop_left]
      simp
  | case3 c2 rest2 ih =>
    intro pos st _
    rw [parseChars_bs_cons]
    exact ih (pos + 2) (escapeStep st pos c2) (Or.inl (by unfold escapeStep; simp))
  | case4 c2 rest2 hc ih =>
    intro pos st hyp
    by_cases hq : c2 = '?'
    · subst hq
      rw [parseChars_q]
      by_cases hb : st.literalBuilder = []
      · rw [flushed_drop_head rest2 (pos + 1) (anyCharStep st) st.tokens []
          Token.AnyChar (by unfold anyCharStep; dsimp only; rw [hb, flushTokens_nil])]
        simp
      · rw [flushed_drop_head rest2 (pos + 1) (anyCharStep st) st.tokens [Token.AnyChar]
          (Token.LiteralSequence st.literalBuilder)
          (by unfold anyCharStep; dsimp only; rw [flushTokens_ne _ hb]
              simp [List.append_assoc])]
        simp
    · by_cases hst : c2 = '*'
      · subst hst
        have hbne : st.literalBuilder ≠ [] := by
          rcases hyp with hbne | hh
          · exact hbne
          · exact absurd rfl hh
        rw [parseChars_star]
        have hstep : starStep st pos =
            { literalBuilder := [],
              tokens := (st.tokens ++ [Token.LiteralSequence st.literalBuilder]) ++
                [Token.AnySequence],
              events := st.events } := by
          unfold starStep
          rw [flushTokens_ne _ hbne, if_neg (by rw [List.getLast?_concat]; simp)]
        rw [flushed_drop_head rest2 (pos + 1) (starStep st pos) st.tokens
          [Token.AnySequence] (Token.LiteralSequence st.literalBuilder)
          (by rw [hstep]; simp [List.append_assoc])]
        simp
      · rw [parseChars_other _ _ _ hq hst hc]
        exact ih (pos + 1) { st with literalBuilder := st.literalBuilder ++ [c2] }
          (Or.inl (by simp))

theorem Parser.parse_eq (p : List Char) :
    Parser.parse p =
      ⟨flushTokens (parseChars p 1 ⟨[], [], []⟩).literalBuilder
          (parseChars p 1 ⟨[], [], []⟩).tokens,
        (parseChars p 1 ⟨[], [], []⟩).events⟩ := rfl

theorem cleanlyConsumed_replicate_star (k : Nat) :
    cleanlyConsumed (List.replicate k '*') = true := by
  induction k with
  | zero => rfl
  | succ k ih =>
    rw [List.replicate_succ, cleanlyConsumed.eq_def]
    dsimp only
    rw [if_neg (show ¬ (('*' : Char) = '\\') by decide)]
    exact ih

/-- A maximal run of `k` unescaped asterisks in a pattern `u ++ '*'^k ++ v`
(maximality: `u` does not end in an unescaped `'*'`, `v` does not start with
`'*'`) compiles to exactly one `AnySequence` token, whose neighbours are not
`AnySequence`, and contributes exactly the `k - 1` merge events at the
positions of the 2nd through kth asterisk; no other event of the parse lies
in the run's position range. -/
theorem parse_star_run (u v : List Char) (k : Nat) (hk : 1 ≤ k)
    (hu : cleanlyConsumed u = true) (hru : endsUnescStar u = false)
    (hv : v.head? ≠ some '*') :
    (∃ A B, (Parser.parse (u ++ (List.replicate k '*' ++ v))).tokens =
        A ++ Token.AnySequence :: B ∧
        A.getLast? ≠ some Token.AnySequence ∧ B.head? ≠ some Token.AnySequence) ∧
    (Parser.parse (u ++ (List.replicate k '*' ++ v))).events.filter
        (fun e => decide (u.length + 1 ≤ e.position) &&
          decide (e.position ≤ u.length + k)) =
      (List.range (k - 1)).map
        (fun i => ⟨IssueCode.ConsecutiveAsterisksMerged, u.length + 2 + i, none⟩) := by
  have hrep : cleanlyConsumed (List.replicate k '*') = true :=
    cleanlyConsumed_replicate_star k
  have hsplit : parseChars (u ++ (List.replicate k '*' ++ v)) 1 ⟨[], [], []⟩ =
      parseChars v (1 + u.length + k)
        (parseChars (List.replicate k '*') (1 + u.length)
          (parseChars u 1 ⟨[], [], []⟩)) := by
    rw [parseChars_append _ u 1 _ hu, parseChars_append _ (List.replicate k '*') _ _ hrep,
      List.length_replicate]
  have hlast : (flushTokens (parseChars u 1 ⟨[], [], []⟩).literalBuilder
      (parseChars u 1 ⟨[], [], []⟩).tokens).getLast? ≠ some Token.AnySequence := by
    by_cases hne : u = []
    · subst hne
      rw [parseChars_nil]
      show (flushTokens [] []).getLast? ≠ _
      rw [flushTokens_nil]
      simp
    · intro hcontra
      rw [flushLast_star_iff u 1 ⟨[], [], []⟩ hne hu] at hcontra
      rw [hru] at hcontra
      exact Bool.false_ne_true hcontra
  have hrun := starRun k hk (1 + u.length) (parseChars u 1 ⟨[], [], []⟩) hlast
  obtain ⟨ext, hext⟩ := (parseChars_extend v (1 + u.length + k)
    { literalBuilder := [],
      tokens := flushTokens (parseChars u 1 ⟨[], [], []⟩).literalBuilder
        (parseChars u 1 ⟨[], [], []⟩).tokens ++ [Token.AnySequence],
      events := (parseChars u 1 ⟨[], [], []⟩).events ++ (List.range (k - 1)).map
        (fun i => ⟨IssueCode.ConsecutiveAsterisksMerged, 1 + u.length + 1 + i, none⟩) }).1
  obtain ⟨evsV, hevsV, hposV⟩ := (parseChars_extend v (1 + u.length + k)
    { literalBuilder := [],
      tokens := flushTokens (parseChars u 1 ⟨[], [], []⟩).literalBuilder
        (parseChars u 1 ⟨[], [], []⟩).tokens ++ [Token.AnySequence],
      events := (parseChars u 1 ⟨[], [], []⟩).events ++ (List.range (k - 1)).map
        (fun i => ⟨IssueCode.ConsecutiveAsterisksMerged, 1 + u.length + 1 + i, none⟩) }).2
  obtain ⟨evsU, hevsU, hposU⟩ := (parseChars_extend u 1 ⟨[], [], []⟩).2
  have hhead := appended_head v (1 + u.length + k)
    { literalBuilder := [],
      tokens := flushTokens (parseChars u 1 ⟨[], [], []⟩).literalBuilder
        (parseChars u 1 ⟨[], [], []⟩).tokens ++ [Token.AnySequence],
      events := (parseChars u 1 ⟨[], [], []⟩).events ++ (List.range (k - 1)).map
        (fun i => ⟨IssueCode.ConsecutiveAsterisksMerged, 1 + u.length + 1 + i, none⟩) }
    (Or.inr hv)
  rw [Parser.parse_eq]
  dsimp only
  rw [hsplit, hrun]
  dsimp only at hext hevsV hposV hhead ⊢
  constructor
  · -- token decomposition
    have hC : ∃ C, flushTokens
        (parseChars v (1 + u.length + k)
          { literalBuilder := [],
            tokens := flushTokens (parseChars u 1 ⟨[], [], []⟩).literalBuilder
              (parseChars u 1 ⟨[], [], []⟩).tokens ++ [Token.AnySequence],
            events := (parseChars u 1 ⟨[], [], []⟩).events ++ (List.range (k - 1)).map
              (fun i => ⟨IssueCode.ConsecutiveAsterisksMerged, 1 + u.length + 1 + i,
                none⟩) }).literalBuilder
        (parseChars v (1 + u.length + k)
          { literalBuilder := [],
            tokens := flushTokens (parseChars u 1 ⟨[], [], []⟩).literalBuilder
              (parseChars u 1 ⟨[], [], []⟩).tokens ++ [Token.AnySequence],
            events := (parseChars u 1 ⟨[], [], []⟩).events ++ (List.range (k - 1)).map
              (fun i => ⟨IssueCode.ConsecutiveAsterisksMerged, 1 + u.length + 1 + i,
                none⟩) }).tokens =
        (flushTokens (parseChars u 1 ⟨[], [], []⟩).literalBuilder
          (parseChars u 1 ⟨[], [], []⟩).tokens ++ [Token.AnySequence]) ++ C := by
      by_cases hb : (parseChars v (1 + u.length + k)
          { literalBuilder := [],
            tokens := flushTokens (parseChars u 1 ⟨[], [], []⟩).literalBuilder
              (parseChars u 1 ⟨[], [], []⟩).tokens ++ [Token.AnySequence],
            events := (parseChars u 1 ⟨[], [], []⟩).events ++ (List.range (k - 1)).map
              (fun i => ⟨IssueCode.ConsecutiveAsterisksMerged, 1 + u.length + 1 + i,
                none⟩) }).literalBuilder = []
      · refine ⟨ext, ?_⟩
        rw [hb, flushTokens_nil, hext]
      · refine ⟨ext ++ [Token.LiteralSequence
            ((parseChars v (1 + u.length + k)
              { literalBuilder := [],
                tokens := flushTokens (parseChars u 1 ⟨[], [], []⟩).literalBuilder
                  (parseChars u 1 ⟨[], [], []⟩).tokens ++ [Token.AnySequence],
                events := (parseChars u 1 ⟨[], [], []⟩).events ++ (List.range (k - 1)).map
                  (fun i => ⟨IssueCode.ConsecutiveAsterisksMerged, 1 + u.length + 1 + i,
                    none⟩) }).literalBuilder)], ?_⟩
        rw [flushTokens_ne _ hb, hext, List.append_assoc]
    obtain ⟨C, hCeq⟩ := hC
    rw [hCeq, List.drop_left] at hhead
    refine ⟨flushTokens (parseChars u 1 ⟨[], [], []⟩).literalBuilder
      (parseChars u 1 ⟨[], [], []⟩).tokens, C, ?_, hlast, hhead⟩
    rw [hCeq, List.append_assoc, List.singleton_append]
  · -- event filter
    rw [hevsV, hevsU]
    simp only [List.nil_append]
    rw [List.filter_append, List.filter_append]
    have h1 : evsU.filter (fun e => decide (u.length + 1 ≤ e.position) &&
        decide (e.position ≤ u.length + k)) = [] := by
      rw [List.filter_eq_nil_iff]
      intro e he
      have := (hposU e he).2
      simp only [Bool.and_eq_true, decide_eq_true_eq, not_and]
      intro h
      omega
    have h3 : evsV.filter (fun e => decide (u.length + 1 ≤ e.position) &&
        decide (e.position ≤ u.length + k)) = [] := by
      rw [List.filter_eq_nil_iff]
      intro e he
      have := (hposV e he).1
      simp only [Bool.and_eq_true, decide_eq_true_eq, not_and]
      intro h
      omega
    have h2 : ((List.range (k - 1)).map
        (fun i => (⟨IssueCode.ConsecutiveAsterisksMerged, 1 + u.length + 1 + i,
          none⟩ : ParseEvent))).filter
        (fun e => decide (u.length + 1 ≤ e.position) &&
          decide (e.position ≤ u.length + k)) =
        (List.range (k - 1)).map
          (fun i => ⟨IssueCode.ConsecutiveAsterisksMerged, 1 + u.length + 1 + i, none⟩) := by
      rw [List.filter_eq_self]
      intro e he
      obtain ⟨i, hi, rfl⟩ := List.mem_map.mp he
      have hik : i < k - 1 := List.mem_range.mp hi
      simp only [Bool.and_eq_true, decide_eq_true_eq]
      omega
    rw [h1, h3, h2, List.nil_append, List.append_nil]
    apply List.map_congr_left
    intro i _
    show (⟨IssueCode.ConsecutiveAsterisksMerged, 1 + u.length + 1 + i, none⟩ : ParseEvent) = _
    congr 1
    omega

/-! ### Boundary-policy helpers (C2) -/

theorem noEmptyLit_nil : NoEmptyLit [] :=
  fun _ hv => absurd hv (List.not_mem_nil _)

/-- A token list with no empty literal matches the empty text exactly when
it is all `AnySequence`. -/
theorem recMatch_nil_text {ts : List Token} (hne : NoEmptyLit ts) :
    recMatch [] ts = ts.all (fun t => decide (t = Token.AnySequence)) := by
  apply Bool.eq_iff_iff.mpr
  rw [recMatch_iff, matches_nil_iff hne, List.all_eq_true]
  simp

/-! ### The backslash rule (C4) -/

/-- A trailing backslash contributes no token and one `TrailingBackslash`
event at its own position. -/
theorem parse_trailing_backslash (u : List Char) (hu : cleanlyConsumed u = true) :
    (Parser.parse (u ++ ['\\'])).tokens = (Parser.parse u).tokens ∧
    (Parser.parse (u ++ ['\\'])).events =
      (Parser.parse u).events ++ [⟨IssueCode.TrailingBackslash, u.length + 1, none⟩] := by
  rw [Parser.parse_eq, Parser.parse_eq]
  rw [parseChars_append _ u 1 _ hu, parseChars_bs_last]
  refine ⟨rfl, ?_⟩
  dsimp only
  rw [Nat.add_comm 1 u.length]

/-- The two-character escape: the escaped character joins the pending run,
two characters are consumed, and a malformed escape additionally emits an
`UndefinedEscapeSequence` event with the offending character as detail. -/
theorem parse_escape_step (u : List Char) (hu : cleanlyConsumed u = true)
    (c : Char) (v : List Char) :
    parseChars (u ++ '\\' :: c :: v) 1 ⟨[], [], []⟩ =
      parseChars v (u.length + 3)
        { literalBuilder := (parseChars u 1 ⟨[], [], []⟩).literalBuilder ++ [c],
          tokens := (parseChars u 1 ⟨[], [], []⟩).tokens,
          events := (parseChars u 1 ⟨[], [], []⟩).events ++
            (if c = '*' ∨ c = '?' ∨ c = '\\' then [] else
              [⟨IssueCode.UndefinedEscapeSequence, u.length + 1,
                some (String.mk [c])⟩]) } := by
  rw [parseChars_append _ u 1 _ hu, parseChars_bs_cons]
  rw [show (1 : Nat) + u.length = u.length + 1 from by omega]
  rw [show u.length + 1 + 2 = u.length + 3 from by omega]
  congr 1
  unfold escapeStep
  by_cases hc3 : c = '*' ∨ c = '?' ∨ c = '\\'
  · have hdef : isDefinedEscape c = true := by
      rcases hc3 with h | h | h <;> simp [isDefinedEscape, h]
    rw [hdef, if_pos hc3]
    simp
  · have hdef : isDefinedEscape c = false := by
      simp only [not_or] at hc3
      obtain ⟨h1, h2, h3⟩ := hc3
      simp [isDefinedEscape, h1, h2, h3]
    rw [hdef, if_neg hc3]
    simp

/-! ### validateRawString (C8) -/

theorem validateRawString_all_le (bs : List Nat) :
    ∀ i0, (∀ b ∈ bs, b ≤ 127) → Validator.validateRawString bs i0 = [] := by
  induction bs with
  | nil => intro i0 _; rfl
  | cons b rest ih =>
    intro i0 h
    unfold Validator.validateRawString
    rw [if_neg (by have := h b (List.mem_cons_self b rest); omega)]
    exact ih (i0 + 1) (fun x hx => h x (List.mem_cons_of_mem _ hx))

theorem validateRawString_nil_all (bs : List Nat) :
    ∀ i0, Validator.validateRawString bs i0 = [] → ∀ b ∈ bs, b ≤ 127 := by
  induction bs with
  | nil => intro _ _ b hb; exact absurd hb (List.not_mem_nil b)
  | cons b rest ih =>
    intro i0 h x hx
    unfold Validator.validateRawString at h
    by_cases hb : 127 < b
    · rw [if_pos hb] at h
      exact absurd h (by simp)
    · rw [if_neg hb] at h
      rcases List.mem_cons.mp hx with rfl | hx2
      · omega
      · exact ih (i0 + 1) h x hx2

theorem validateRawString_len_le (bs : List Nat) :
    ∀ i0, (Validator.validateRawString bs i0).length ≤ 1 := by
  induction bs with
  | nil => intro i0; simp [Validator.validateRawString]
  | cons b rest ih =>
    intro i0
    unfold Validator.validateRawString
    by_cases hb : 127 < b
    · rw [if_pos hb]
      simp
    · rw [if_neg hb]
      exact ih (i0 + 1)

/-- The first byte over 127 produces the single issue, at its 1-based
index offset by the start index. -/
theorem validateRawString_first (bs : List Nat) :
    ∀ i0 i, i < bs.length → 127 < bs.getD i 0 → (∀ j, j < i → bs.getD j 0 ≤ 127) →
      Validator.validateRawString bs i0 =
        [Validator.createIssue IssueCode.MultibyteCharacterNotAllowed (i0 + i + 1)] := by
  induction bs with
  | nil =>
    intro i0 i hi
    exact absurd hi (by simp)
  | cons b rest ih =>
    intro i0 i hi hgt hlt
    unfold Validator.validateRawString
    cases i with
    | zero =>
      rw [if_pos (by simpa using hgt)]
    | succ j =>
      have hb : ¬ 127 < b := by
        have := hlt 0 (Nat.succ_pos j)
        simp only [List.getD_cons_zero] at this
        omega
      rw [if_neg hb]
      have hrec := ih (i0 + 1) j (by simpa using hi) (by simpa using hgt)
        (fun j2 hj2 => by
          have := hlt (j2 + 1) (by omega)
          simpa using this)
      rw [hrec]
      congr 2
      omega

/-! ## The claims -/

/-- C1 counterexample: the single-row solver works on the raw pattern
characters, not on the compiled tokens.  For the pattern `"\\"` (two
characters) the compiler produces the literal token `"\"`; the four
token-aware strategies match the text `"\"`, but the single-row solver,
fed the raw pattern, does not. -/
theorem c1_nfa_disagrees :
    (Parser.parse ['\\', '\\']).tokens = [Token.LiteralSequence ['\\']] ∧
    recMatch ['\\'] [Token.LiteralSequence ['\\']] = true ∧
    memoMatch ['\\'] [Token.LiteralSequence ['\\']] = true ∧
    dpMatch ['\\'] [Token.LiteralSequence ['\\']] = true ∧
    greedyMatch ['\\'] [Token.LiteralSequence ['\\']] = true ∧
    nfaMatch ['\\'] ['\\', '\\'] = false := by
  refine ⟨by decide, ?_, by decide, by decide, by decide, by decide⟩
  rw [← memoMatch_eq_recMatch]
  decide

/-- C1 (amended): cross-strategy agreement holds for the four strategies
that consume compiled tokens — recursive backtracking, memoized recursion,
dense dynamic programming and two-pointer greedy backtracking return the
same boolean for every text and every compiled token list.  (The single-row
solver takes the raw pattern, not tokens, and differs on patterns with
escapes; see the counterexample.) -/
theorem c1_cross_strategy_on_compiled (s p : List Char) :
    memoMatch s (Parser.parse p).tokens = recMatch s (Parser.parse p).tokens ∧
    dpMatch s (Parser.parse p).tokens = recMatch s (Parser.parse p).tokens ∧
    greedyMatch s (Parser.parse p).tokens = recMatch s (Parser.parse p).tokens :=
  ⟨memoMatch_eq_recMatch s _, dpMatch_eq_recMatch s _ (parse_noEmptyLit p),
    greedyMatch_eq_recMatch s _ (parse_noEmptyLit p)⟩

/-- C2: boundary policy.  For every strategy an empty token list (empty
pattern, for the single-row solver) matches a text iff the text is empty;
and a compiled token list matches the empty text iff every token is
`AnySequence` (for the single-row solver: iff every pattern character is
`'*'`). -/
theorem c2_boundary_policy (s p : List Char) :
    (recMatch s [] = s.isEmpty ∧ memoMatch s [] = s.isEmpty ∧
      dpMatch s [] = s.isEmpty ∧ greedyMatch s [] = s.isEmpty ∧
      nfaMatch s [] = s.isEmpty) ∧
    (recMatch [] (Parser.parse p).tokens =
        (Parser.parse p).tokens.all (fun t => decide (t = Token.AnySequence)) ∧
      memoMatch [] (Parser.parse p).tokens =
        (Parser.parse p).tokens.all (fun t => decide (t = Token.AnySequence)) ∧
      dpMatch [] (Parser.parse p).tokens =
        (Parser.parse p).tokens.all (fun t => decide (t = Token.AnySequence)) ∧
      greedyMatch [] (Parser.parse p).tokens =
        (Parser.parse p).tokens.all (fun t => decide (t = Token.AnySequence)) ∧
      nfaMatch [] p = p.all (fun c => decide (c = '*'))) := by
  refine ⟨⟨recMatch_nil s, ?_, ?_, ?_, nfaMatch_nil_pattern s⟩,
    ⟨recMatch_nil_text (parse_noEmptyLit p), ?_, ?_, ?_, nfaMatch_nil_text p⟩⟩
  · rw [memoMatch_eq_recMatch, recMatch_nil]
  · rw [dpMatch_eq_recMatch s [] noEmptyLit_nil, recMatch_nil]
  · rw [greedyMatch_eq_recMatch s [] noEmptyLit_nil, recMatch_nil]
  · rw [memoMatch_eq_recMatch, recMatch_nil_text (parse_noEmptyLit p)]
  · rw [dpMatch_eq_recMatch [] _ (parse_noEmptyLit p),
      recMatch_nil_text (parse_noEmptyLit p)]
  · rw [greedyMatch_eq_recMatch [] _ (parse_noEmptyLit p),
      recMatch_nil_text (parse_noEmptyLit p)]

/-- C3: merging law.  In a pattern `u ++ '*'^k ++ v` whose asterisk run is
maximal (`u` is cleanly consumed and does not end in an unescaped `'*'`,
`v` does not start with `'*'`) with `k ≥ 2`, compile produces exactly one
`AnySequence` token for the run (its neighbours are not `AnySequence`), and
the events lying in the run's position range are exactly the `k - 1`
`ConsecutiveAsterisksMerged` events at the 1-based positions of the 2nd
through kth asterisk. -/
theorem c3_asterisk_merging (u v : List Char) (k : Nat) (hk : 2 ≤ k)
    (hu : cleanlyConsumed u = true) (hru : endsUnescStar u = false)
    (hv : v.head? ≠ some '*') :
    (∃ A B, (Parser.parse (u ++ (List.replicate k '*' ++ v))).tokens =
        A ++ Token.AnySequence :: B ∧
        A.getLast? ≠ some Token.AnySequence ∧ B.head? ≠ some Token.AnySequence) ∧
    (Parser.parse (u ++ (List.replicate k '*' ++ v))).events.filter
        (fun e => decide (u.length + 1 ≤ e.position) &&
          decide (e.position ≤ u.length + k)) =
      (List.range (k - 1)).map
        (fun i => ⟨IssueCode.ConsecutiveAsterisksMerged, u.length + 2 + i, none⟩) :=
  parse_star_run u v k (by omega) hu hru hv

theorem c3_asterisk_merging_witness :
    (2 : Nat) ≤ 3 ∧ cleanlyConsumed ['a'] = true ∧ endsUnescStar ['a'] = false ∧
      ['b'].head? ≠ some '*' ∧
    ((∃ A B, (Parser.parse ['a', '*', '*', '*', 'b']).tokens =
        A ++ Token.AnySequence :: B ∧
        A.getLast? ≠ some Token.AnySequence ∧ B.head? ≠ some Token.AnySequence) ∧
      (Parser.parse ['a', '*', '*', '*', 'b']).events.filter
          (fun e => decide (2 ≤ e.position) && decide (e.position ≤ 4)) =
        (List.range 2).map
          (fun i => ⟨IssueCode.ConsecutiveAsterisksMerged, 3 + i, none⟩)) :=
  ⟨by decide, by decide, by decide, by decide,
    c3_asterisk_merging ['a'] ['b'] 3 (by decide) (by decide) (by decide) (by decide)⟩

/-- C4: backslash rule.  A trailing backslash emits `TrailingBackslash` at
its own 1-based position and contributes no token; a backslash followed by
`c` appends `c` to the pending literal run and consumes two characters,
silently when `c` is `'*'`, `'?'` or `'\'`, and with one additional
`UndefinedEscapeSequence` event (detail: the offending character, at the
backslash's position) otherwise. -/
theorem c4_backslash_rule (u : List Char) (hu : cleanlyConsumed u = true) :
    ((Parser.parse (u ++ ['\\'])).tokens = (Parser.parse u).tokens ∧
      (Parser.parse (u ++ ['\\'])).events =
        (Parser.parse u).events ++ [⟨IssueCode.TrailingBackslash, u.length + 1, none⟩]) ∧
    ∀ (c : Char) (v : List Char),
      parseChars (u ++ '\\' :: c :: v) 1 ⟨[], [], []⟩ =
        parseChars v (u.length + 3)
          { literalBuilder := (parseChars u 1 ⟨[], [], []⟩).literalBuilder ++ [c],
            tokens := (parseChars u 1 ⟨[], [], []⟩).tokens,
            events := (parseChars u 1 ⟨[], [], []⟩).events ++
              (if c = '*' ∨ c = '?' ∨ c = '\\' then [] else
                [⟨IssueCode.UndefinedEscapeSequence, u.length + 1,
                  some (String.mk [c])⟩]) } :=
  ⟨parse_trailing_backslash u hu, fun c v => parse_escape_step u hu c v⟩

theorem c4_backslash_rule_witness :
    cleanlyConsumed ([] : List Char) = true ∧
    (((Parser.parse ['\\']).tokens = (Parser.parse ([] : List Char)).tokens ∧
        (Parser.parse ['\\']).events =
          (Parser.parse ([] : List Char)).events ++
            [⟨IssueCode.TrailingBackslash, 1, none⟩]) ∧
      ∀ (c : Char) (v : List Char),
        parseChars ('\\' :: c :: v) 1 ⟨[], [], []⟩ =
          parseChars v 3
            { literalBuilder := [c], tokens := [],
              events := if c = '*' ∨ c = '?' ∨ c = '\\' then [] else
                [⟨IssueCode.UndefinedEscapeSequence, 1, some (String.mk [c])⟩] }) :=
  ⟨by decide, c4_backslash_rule [] (by decide)⟩

/-- C5: the dense dynamic-programming solver computes exactly the specified
recurrence (base row, `AnySequence`, `AnyChar` and `LiteralSequence`
transitions) and returns `dp[m][n]`. -/
theorem c5_dp_recurrence (s : List Char) (ts : List Token) :
    dpMatch s ts = dpSpec s ts s.length ts.length ∧
    dpSpec s ts 0 0 = true ∧
    (∀ j, dpSpec s ts 0 (j + 1) =
      if ts.getD j Token.AnyChar = Token.AnySequence then dpSpec s ts 0 j else false) ∧
    (∀ i, dpSpec s ts (i + 1) 0 = false) ∧
    (∀ i j, dpSpec s ts (i + 1) (j + 1) =
      match ts.getD j Token.AnyChar with
      | Token.AnySequence => dpSpec s ts (i + 1) j || dpSpec s ts i (j + 1)
      | Token.AnyChar => dpSpec s ts i j
      | Token.LiteralSequence v =>
        if litEndingAt s (i + 1) v then dpSpec s ts (i + 1 - v.length) j else false
      | Token.CharacterSet _ => false) :=
  ⟨dpMatch_eq_dpSpec s ts, dpSpec_zero_zero s ts, fun j => dpSpec_zero_succ s ts j,
    fun i => dpSpec_succ_zero s ts i, fun i j => dpSpec_succ_succ s ts i j⟩

/-- C6: parse-output invariant.  Every compiled token is `AnyChar`,
`AnySequence` or a non-empty `LiteralSequence` — never a `CharacterSet` —
and no two adjacent tokens are both `AnySequence`. -/
theorem c6_parse_invariant (p : List Char) :
    (∀ t ∈ (Parser.parse p).tokens, t = Token.AnyChar ∨ t = Token.AnySequence ∨
      ∃ v, v ≠ [] ∧ t = Token.LiteralSequence v) ∧
    (∀ cs : List Bool, Token.CharacterSet cs ∉ (Parser.parse p).tokens) ∧
    List.Chain' (fun a b => ¬(a = Token.AnySequence ∧ b = Token.AnySequence))
      (Parser.parse p).tokens := by
  refine ⟨?_, parse_noCharSet p, (parse_tokensOK p).2⟩
  intro t ht
  have h := (parse_tokensOK p).1 t ht
  cases t with
  | AnyChar => exact Or.inl rfl
  | AnySequence => exact Or.inr (Or.inl rfl)
  | LiteralSequence v => exact Or.inr (Or.inr ⟨v, h.2 v rfl, rfl⟩)
  | CharacterSet cs => exact absurd rfl (h.1 cs)

/-- C7: `validateParseResult` maps each event, in order, to one Issue whose
type is fixed by the event code (merged asterisks give a Warning, the other
three codes an Error) and whose message is
`"<Type> at position <n>: <text>"`, the undefined-escape text embedding the
offending character from the event's detail. -/
theorem c7_validate_parse_result (pr : ParseResult) :
    (Validator.validateParseResult pr).length = pr.events.length ∧
    Validator.validateParseResult pr = pr.events.map (fun e =>
      let ty : IssueType :=
        match e.code with
        | IssueCode.ConsecutiveAsterisksMerged => IssueType.Warning
        | IssueCode.MultibyteCharacterNotAllowed => IssueType.Error
        | IssueCode.UndefinedEscapeSequence => IssueType.Error
        | IssueCode.TrailingBackslash => IssueType.Error
      ⟨ty, e.code,
        issueTypeToString ty ++ " at position " ++ toString e.position ++ ": " ++
          (match e.code with
          | IssueCode.MultibyteCharacterNotAllowed =>
            "Input must contain only single-byte ASCII characters; a multi-byte character was found."
          | IssueCode.UndefinedEscapeSequence =>
            "Undefined escape sequence '\\" ++ e.detail.getD "" ++ "'. This is a fatal error."
          | IssueCode.TrailingBackslash =>
            "Pattern cannot end with a trailing backslash. This is a fatal error."
          | IssueCode.ConsecutiveAsterisksMerged =>
            "Consecutive '*' characters were found and automatically merged into a single '*'.")⟩) := by
  constructor
  · unfold Validator.validateParseResult
    exact List.length_map _ _
  · unfold Validator.validateParseResult
    apply List.map_congr_left
    intro e _
    cases h : e.code <;> rfl

/-- C8: `validateRawString` returns no issue when every byte is at most
127; it returns at most one issue; and when the first byte over 127 sits at
0-based index `i` it returns exactly one Error with code
`MultibyteCharacterNotAllowed` reporting 1-based position `i + 1`. -/
theorem c8_validate_raw_string (bs : List Nat) :
    (Validator.validateRawString bs 0).length ≤ 1 ∧
    (Validator.validateRawString bs 0 = [] ↔ ∀ b ∈ bs, b ≤ 127) ∧
    (∀ i, i < bs.length → 127 < bs.getD i 0 → (∀ j, j < i → bs.getD j 0 ≤ 127) →
      Validator.validateRawString bs 0 =
        [⟨IssueType.Error, IssueCode.MultibyteCharacterNotAllowed,
          issueTypeToString IssueType.Error ++ " at position " ++ toString (i + 1) ++
            ": " ++
            "Input must contain only single-byte ASCII characters; a multi-byte character was found."⟩]) := by
  refine ⟨validateRawString_len_le bs 0,
    ⟨validateRawString_nil_all bs 0, validateRawString_all_le bs 0⟩, ?_⟩
  intro i hi hgt hlt
  rw [validateRawString_first bs 0 i hi hgt hlt]
  rw [show (0 : Nat) + i + 1 = i + 1 from by omega]
  rfl

/-- C9: compile is total and deterministic — every pattern yields a complete
tokens-and-events pair (the embedding is a total function into
`ParseResult`), and equal patterns compile to identical results. -/
theorem c9_compile_total_deterministic (p : List Char) :
    (∃ ts evs, Parser.parse p = ⟨ts, evs⟩) ∧
    ∀ q, p = q → Parser.parse p = Parser.parse q :=
  ⟨⟨(Parser.parse p).tokens, (Parser.parse p).events, rfl⟩, fun _ h => by rw [h]⟩

/-- C10: the recursive strategy's maximum recursion depth, threaded from 0,
is at most text length plus token count, and the instrumented solver
computes the same boolean as the plain one. -/
theorem c10_recursion_depth (s : List Char) (ts : List Token) :
    (recMatchD s ts 0).1 = recMatch s ts ∧
    (recMatchD s ts 0).2 ≤ s.length + ts.length :=
  ⟨recMatchD_fst s ts 0, by have := recMatchD_depth_le s ts 0; omega⟩

end Wildcard
